import Mathlib

/-!
# Congestion Game Simulator — verification of the flow-assignment core

Shallow embedding of `backend/app/main.py`: the cost-function evaluators,
the path enumeration, the Frank-Wolfe traffic-assignment engine
(`TrafficAssignment`), the result formatter and the `/compute` endpoint's
solver pipeline.

Modelling conventions:
* Python floats are modelled by `ℚ`.  Python's float `**` operator is kept
  abstract as a parameter `pw : ℚ → ℚ → ℚ` (its exact value on non-integer
  exponents is irrational); the concrete instance `ratPow` agrees with the
  Python semantics on integer exponents, which is all the concrete test
  networks use.  `pyPow`/`pyDiv` additionally model the cases in which the
  Python operators raise (`0.0 ** negative` raises `ZeroDivisionError`, as
  does division by `0.0`) by returning `none`.
* `scipy.optimize.minimize_scalar(..., bounds=(0, 1), method='bounded')`
  is an external numeric routine; it is modelled by an oracle
  `αs : Nat → ℚ` giving the step size chosen at each iteration.  Theorems
  quantify over every oracle (with the bound `0 ≤ αs i ≤ 1` as a
  hypothesis where the claim needs it), hence hold in particular for the
  values scipy actually returns.
* Python dicts are modelled by association lists in insertion order with
  last-write-wins update semantics (`pyKeys`, `dictSet`, `lookupD`).
* `Python round(x, 4)` is modelled by `round4` (half-to-even at four
  decimal digits).
-/

/-- Insertion-ordered key set of a Python dict built by repeated
assignment: first occurrence of each key keeps its position. -/
def pyKeys (l : List String) : List String :=
  l.foldl (fun acc k => if k ∈ acc then acc else acc ++ [k]) []

/-- Dict lookup with default `0`, i.e. `d.get(k, 0.0)` (and plain `d[k]`
at keys that are present). -/
def lookupD (m : List (String × ℚ)) (k : String) : ℚ :=
  match m.find? (fun p => p.1 == k) with
  | some p => p.2
  | none => 0

/-- Dict assignment `d[k] = v`: overwrite the binding if the key is
present, otherwise append it. -/
def dictSet (m : List (String × ℚ)) (k : String) (v : ℚ) : List (String × ℚ) :=
  if m.any (fun p => p.1 == k) then
    m.map (fun p => if p.1 == k then (k, v) else p)
  else m ++ [(k, v)]

/-- Concrete power function used to instantiate the abstract `pw` in
witnesses: on integer exponents it agrees with Python's float `**`
(in particular `x ^ 0 = 1`, also at `x = 0`). -/
def ratPow (x e : ℚ) : ℚ :=
  if e.den = 1 then x ^ e.num else 0

/-- Python's float `**` on non-negative bases: raises (`none`) exactly
for `0.0 ** negative`; otherwise its value is given by the abstract
power `pw`. -/
def pyPow (pw : ℚ → ℚ → ℚ) (x e : ℚ) : Option ℚ :=
  if x = 0 ∧ e < 0 then none else some (pw x e)

/-- Python's float `/`: raises (`none`) exactly on a zero denominator. -/
def pyDiv (x y : ℚ) : Option ℚ :=
  if y = 0 then none else some (x / y)

/-- Half-to-even integer rounding, the semantics of Python's `round`. -/
def roundHalfEven (x : ℚ) : ℤ :=
  if x - ⌊x⌋ = 1 / 2 then (if 2 ∣ ⌊x⌋ then ⌊x⌋ else ⌊x⌋ + 1) else round x

/-- Model of Python's `round(x, 4)`. -/
def round4 (x : ℚ) : ℚ :=
  (roundHalfEven (x * 10000) : ℚ) / 10000

/-! ## Data model (`pydantic` models of `main.py`) -/

/-- Cost function parameters for an edge (`EdgeCostFunction`):
polynomial `t(f) = a * f^k + b`, or BPR
`t(f) = free_flow_time * (1 + alpha * (f/capacity)^beta)`. -/
structure EdgeCostFunction where
  a : ℚ
  k : ℚ
  b : ℚ
  function_type : String
  free_flow_time : ℚ
  capacity : ℚ
  alpha : ℚ
  beta : ℚ
deriving DecidableEq

structure Edge where
  id : String
  source : String
  target : String
  cost_function : EdgeCostFunction
deriving DecidableEq

structure Node where
  id : String
  x : ℚ
  y : ℚ
deriving DecidableEq

structure ODPair where
  origin : String
  destination : String
  demand : ℚ
deriving DecidableEq

structure NetworkData where
  nodes : List Node
  edges : List Edge
  od_pairs : List ODPair
deriving DecidableEq

/-! ## Cost function evaluation

The `evaluate_*` functions below are the line-by-line translation of
`main.py`, in `Option` so that the points where the Python `**` and `/`
raise are visible.  The `evaluate_*T` functions are the same formulas
totalised (junk values where Python would raise); the solver uses them,
mirroring the fact that the solver calls the evaluators directly. -/

/-- The local `ratio` of `evaluate_cost` (line 93):
`flow / capacity if capacity > 0 else 0`. -/
def bprRatio (cf : EdgeCostFunction) (flow : ℚ) : ℚ :=
  if 0 < cf.capacity then flow / cf.capacity else 0

/-- `evaluate_cost` (main.py lines 90-96). -/
def evaluate_cost (pw : ℚ → ℚ → ℚ) (cf : EdgeCostFunction) (flow : ℚ) : Option ℚ :=
  if cf.function_type = "bpr" then
    (pyPow pw (bprRatio cf flow) cf.beta).map (fun r => cf.free_flow_time * (1 + cf.alpha * r))
  else
    (pyPow pw flow cf.k).map (fun r => cf.a * r + cf.b)

/-- `evaluate_cost_derivative` (main.py lines 98-109). -/
def evaluate_cost_derivative (pw : ℚ → ℚ → ℚ) (cf : EdgeCostFunction) (flow : ℚ) : Option ℚ :=
  if cf.function_type = "bpr" then
    if cf.capacity ≤ 0 then some 0
    else
      (pyPow pw (flow / cf.capacity) (cf.beta - 1)).map
        (fun r => cf.free_flow_time * cf.alpha * cf.beta * r / cf.capacity)
  else
    if cf.k = 0 ∨ flow = 0 then some 0
    else (pyPow pw flow (cf.k - 1)).map (fun r => cf.a * cf.k * r)

/-- `evaluate_marginal_cost` (main.py lines 111-113):
`t(f) + f * t'(f)`. -/
def evaluate_marginal_cost (pw : ℚ → ℚ → ℚ) (cf : EdgeCostFunction) (flow : ℚ) : Option ℚ := do
  let c ← evaluate_cost pw cf flow
  let d ← evaluate_cost_derivative pw cf flow
  pure (c + flow * d)

/-- `evaluate_integral` (main.py lines 115-128). -/
def evaluate_integral (pw : ℚ → ℚ → ℚ) (cf : EdgeCostFunction) (flow : ℚ) : Option ℚ :=
  if cf.function_type = "bpr" then
    if cf.capacity ≤ 0 then some (cf.free_flow_time * flow)
    else do
      let r ← pyPow pw flow (cf.beta + 1)
      let cb ← pyPow pw cf.capacity cf.beta
      let q ← pyDiv (cf.free_flow_time * cf.alpha * r) ((cf.beta + 1) * cb)
      pure (cf.free_flow_time * flow + q)
  else do
    let r ← pyPow pw flow (cf.k + 1)
    let q ← pyDiv (cf.a * r) (cf.k + 1)
    pure (q + cf.b * flow)

/-- Total version of `evaluate_cost` (used inside the solver). -/
def evaluate_costT (pw : ℚ → ℚ → ℚ) (cf : EdgeCostFunction) (flow : ℚ) : ℚ :=
  if cf.function_type = "bpr" then
    cf.free_flow_time * (1 + cf.alpha * pw (bprRatio cf flow) cf.beta)
  else
    cf.a * pw flow cf.k + cf.b

/-- Total version of `evaluate_cost_derivative`. -/
def evaluate_cost_derivativeT (pw : ℚ → ℚ → ℚ) (cf : EdgeCostFunction) (flow : ℚ) : ℚ :=
  if cf.function_type = "bpr" then
    if cf.capacity ≤ 0 then 0
    else cf.free_flow_time * cf.alpha * cf.beta * pw (flow / cf.capacity) (cf.beta - 1) / cf.capacity
  else
    if cf.k = 0 ∨ flow = 0 then 0
    else cf.a * cf.k * pw flow (cf.k - 1)

/-- Total version of `evaluate_marginal_cost`. -/
def evaluate_marginal_costT (pw : ℚ → ℚ → ℚ) (cf : EdgeCostFunction) (flow : ℚ) : ℚ :=
  evaluate_costT pw cf flow + flow * evaluate_cost_derivativeT pw cf flow

/-! The spec's closed forms (§4.1), written from the spec's words, with the
documented degenerate fallbacks; to be compared with the code's
`evaluate_*`. -/

/-- Spec §4.1: `cost(f)`; polynomial → `a·f^k + b`; bpr →
`T·(1+α·(f/C)^β)`, degenerate `cost = T` when `C ≤ 0`. -/
def spec_cost (pw : ℚ → ℚ → ℚ) (cf : EdgeCostFunction) (f : ℚ) : ℚ :=
  if cf.function_type = "bpr" then
    if cf.capacity ≤ 0 then cf.free_flow_time
    else cf.free_flow_time * (1 + cf.alpha * pw (f / cf.capacity) cf.beta)
  else
    cf.a * pw f cf.k + cf.b

/-- Spec §4.1: `derivative(f)`; polynomial → `a·k·f^(k−1)`, defined as 0
when `k = 0` or `f = 0`; bpr → `T·α·β·(f/C)^(β−1)/C`, defined as 0 when
`C ≤ 0`. -/
def spec_derivative (pw : ℚ → ℚ → ℚ) (cf : EdgeCostFunction) (f : ℚ) : ℚ :=
  if cf.function_type = "bpr" then
    if cf.capacity ≤ 0 then 0
    else cf.free_flow_time * cf.alpha * cf.beta * pw (f / cf.capacity) (cf.beta - 1) / cf.capacity
  else
    if cf.k = 0 ∨ f = 0 then 0
    else cf.a * cf.k * pw f (cf.k - 1)

/-- Spec §4.1: `integral(f)`; polynomial → `a·f^(k+1)/(k+1) + b·f`;
bpr → `T·f + T·α·f^(β+1)/((β+1)·C^β)`, with `integral = T·f` when
`C ≤ 0`. -/
def spec_integral (pw : ℚ → ℚ → ℚ) (cf : EdgeCostFunction) (f : ℚ) : ℚ :=
  if cf.function_type = "bpr" then
    if cf.capacity ≤ 0 then cf.free_flow_time * f
    else cf.free_flow_time * f +
      cf.free_flow_time * cf.alpha * pw f (cf.beta + 1) / ((cf.beta + 1) * pw cf.capacity cf.beta)
  else
    cf.a * pw f (cf.k + 1) / (cf.k + 1) + cf.b * f

/-! ## Path finding

`find_all_simple_paths` (main.py lines 134-141) delegates to
`networkx.all_simple_paths(graph, source, target, cutoff=10)`, an external
library routine.  Modelled from the spec (§4.2): a depth-first enumeration,
in adjacency (edge-insertion) order, of all simple directed paths from
`source` to `target` with at most `cutoff` edges.  The `except
NetworkXNoPath` branch of the source is dead (the generator is simply
empty when no path exists), so the model is total. -/

/-- Successors of `u` in the `networkx.DiGraph` built by `_build_graph`:
targets of edges out of `u`, in first-insertion order, deduplicated
(parallel edges collapse). -/
def successors (net : NetworkData) (u : String) : List String :=
  pyKeys (net.edges.filterMap (fun e => if e.source = u then some e.target else none))

/-- Modelled from the spec: the depth-first traversal underlying
`networkx.all_simple_paths`.  `vis` is the reversed list of already
visited nodes, `u` the current node, `fuel` the remaining edge budget. -/
def dfsPaths (net : NetworkData) (t : String) : Nat → List String → String → List (List String)
  | fuel, vis, u =>
    if u = t then [(u :: vis).reverse]
    else
      match fuel with
      | 0 => []
      | fuel' + 1 =>
        (successors net u).flatMap
          (fun v => if v ∈ u :: vis then [] else dfsPaths net t fuel' (u :: vis) v)

/-- Modelled from the spec: `networkx.all_simple_paths(G, s, t, cutoff)`. -/
def all_simple_paths (net : NetworkData) (s t : String) (cutoff : Nat) : List (List String) :=
  dfsPaths net t cutoff [] s

/-- `find_all_simple_paths` (main.py lines 134-141): enumerate with
`cutoff=10`, keep the first `max_paths` paths. -/
def find_all_simple_paths (net : NetworkData) (s t : String) (max_paths : Nat) : List (List String) :=
  (all_simple_paths net s t 10).take max_paths

/-- A simple directed path from `s` to `t` in the network's graph with at
most 10 edges (11 nodes): the paths §4.2 says the enumerator produces. -/
def IsCandidatePath (net : NetworkData) (s t : String) (p : List String) : Prop :=
  p.head? = some s ∧ p.getLast? = some t ∧
  List.Chain' (fun u v => (net.edges.any (fun e => e.source = u && e.target = v)) = true) p ∧
  p.Nodup ∧ p.length ≤ 11

/-- `(source, target) -> edge_id` lookup (`self.edge_map`); built by dict
assignment over the edges in order, so the last edge on a node pair
wins. -/
def edge_map (net : NetworkData) (u v : String) : Option String :=
  (net.edges.reverse.find? (fun e => e.source == u && e.target == v)).map (fun e => e.id)

/-- `path_to_edges` (main.py lines 143-150): consecutive node pairs looked
up in `edge_map`; missing pairs are silently skipped. -/
def path_to_edges (net : NetworkData) (path : List String) : List String :=
  (path.zip path.tail).filterMap (fun p => edge_map net p.1 p.2)

/-! ## The `TrafficAssignment` engine -/

/-- `edge_id -> Edge` lookup (`self.edge_data`); last edge with a given id
wins, per dict assignment order. -/
def edge_data (net : NetworkData) (eid : String) : Option Edge :=
  net.edges.reverse.find? (fun e => e.id == eid)

/-- `self.paths_by_od`: present at `(o, d)` exactly when some OD pair has
that key and the enumeration is non-empty (`_find_paths`, lines 181-192). -/
def paths_by_od (net : NetworkData) (o d : String) : Option (List (List String)) :=
  if (net.od_pairs.any (fun od => od.origin == o && od.destination == d))
      ∧ find_all_simple_paths net o d 50 ≠ [] then
    some (find_all_simple_paths net o d 50)
  else none

/-- `self.all_paths`: the flattened list of `(od, path, edges)` triples in
OD-pair order (`_find_paths`, lines 181-192). -/
def all_paths (net : NetworkData) : List ((String × String) × List String × List String) :=
  net.od_pairs.flatMap (fun od =>
    let paths := find_all_simple_paths net od.origin od.destination 50
    if paths = [] then []
    else paths.map (fun p => ((od.origin, od.destination), p, path_to_edges net p)))

/-- Placeholder triple for out-of-range `all_paths` indexing. -/
def emptyTrip : (String × String) × List String × List String :=
  (("", ""), [], [])

/-- Indices of `all_paths` belonging to the OD key `(o, d)` — the
`od_path_indices` list built inside `_all_or_nothing` (lines 230-234) and
`format_results` (line 403). -/
def od_path_indices (net : NetworkData) (o d : String) : List Nat :=
  (List.range (all_paths net).length).filter
    (fun i => ((all_paths net).getD i emptyTrip).1 = (o, d))

/-- Edge flow accumulated on edge `eid` by `_compute_edge_flows`'s `+=`
loop: each path contributes its flow once per occurrence of `eid` in its
edge list. -/
def edge_flow_val (net : NetworkData) (pf : List ℚ) (eid : String) : ℚ :=
  ∑ i in Finset.range (all_paths net).length,
    (((all_paths net).getD i emptyTrip).2.2.count eid : ℚ) * pf.getD i 0

/-- `_compute_edge_flows` (main.py lines 194-202): dict with one key per
network edge id, each mapped to the sum of the flows of the paths
traversing it. -/
def compute_edge_flows (net : NetworkData) (pf : List ℚ) : List (String × ℚ) :=
  (pyKeys (net.edges.map (fun e => e.id))).map (fun eid => (eid, edge_flow_val net pf eid))

/-- The all-zero edge-flow dict `{edge.id: 0.0 for edge in edges}` used to
seed both solvers (lines 285, 324). -/
def zero_edge_flows (net : NetworkData) : List (String × ℚ) :=
  (pyKeys (net.edges.map (fun e => e.id))).map (fun eid => (eid, 0))

/-- `_compute_path_costs` (main.py lines 204-219). -/
def compute_path_costs (pw : ℚ → ℚ → ℚ) (net : NetworkData)
    (edge_flows : List (String × ℚ)) (use_marginal : Bool) : List ℚ :=
  (all_paths net).map (fun trip =>
    trip.2.2.foldl (fun cost eid =>
      match edge_data net eid with
      | some e =>
        cost + (if use_marginal then
            evaluate_marginal_costT pw e.cost_function (lookupD edge_flows eid)
          else
            evaluate_costT pw e.cost_function (lookupD edge_flows eid))
      | none => cost) 0)

/-- `np.argmin` over `costs[idxs]` followed by `idxs[·]`: the first index
in `idxs` whose cost is minimal (lines 240-241). -/
def argmin_on (costs : List ℚ) : List Nat → Nat
  | [] => 0
  | i :: rest => rest.foldl (fun best j => if costs.getD j 0 < costs.getD best 0 then j else best) i

/-- The body of `_all_or_nothing`'s OD loop (lines 225-242): skip OD
pairs without stored paths or without indices, otherwise overwrite (by
`=`, not `+=`) the cheapest candidate path's entry with the demand. -/
def aonStep (net : NetworkData) (path_costs : List ℚ) (path_flows : List ℚ) (od : ODPair) :
    List ℚ :=
  if (paths_by_od net od.origin od.destination).isSome then
    if od_path_indices net od.origin od.destination = [] then path_flows
    else
      path_flows.set (argmin_on path_costs (od_path_indices net od.origin od.destination))
        od.demand
  else path_flows

/-- `_all_or_nothing` (main.py lines 221-244): starting from the zero
vector, assign each OD pair's whole demand to its cheapest candidate
path. -/
def all_or_nothing (net : NetworkData) (path_costs : List ℚ) : List ℚ :=
  net.od_pairs.foldl (aonStep net path_costs) (List.replicate (all_paths net).length 0)

/-- `current + α * (direction - current)`, elementwise (lines 303, 342). -/
def vecCombine (flows dir : List ℚ) (α : ℚ) : List ℚ :=
  (flows.zip dir).map (fun p => p.1 + α * (p.2 - p.1))

/-- `np.max(np.abs(new - old))` (lines 306, 345); the entries are absolute
values, so folding from `0` equals the numpy maximum on the non-empty
arrays the solver feeds it. -/
def maxAbsDiff (xs ys : List ℚ) : ℚ :=
  ((xs.zip ys).map (fun p => |p.1 - p.2|)).foldl max 0

/-- One Frank-Wolfe iteration body (lines 289-303 / 328-342): recompute
edge flows and path costs, take the all-or-nothing direction, and move by
the line-search step `α` (the scipy `minimize_scalar` result, supplied by
the oracle). -/
def fw_update (pw : ℚ → ℚ → ℚ) (net : NetworkData) (use_marginal : Bool)
    (flows : List ℚ) (α : ℚ) : List ℚ :=
  let ef := compute_edge_flows net flows
  let costs := compute_path_costs pw net ef use_marginal
  let dir := all_or_nothing net costs
  vecCombine flows dir α

/-- The `for iteration in range(max_iter)` loop with its convergence
break; `i` is the current iteration index (for the step-size oracle),
`fuel` the remaining iteration budget. -/
def fwLoop (pw : ℚ → ℚ → ℚ) (net : NetworkData) (use_marginal : Bool)
    (αs : Nat → ℚ) (tol : ℚ) : Nat → Nat → List ℚ → List ℚ
  | _, 0, flows => flows
  | i, fuel + 1, flows =>
    let nf := fw_update pw net use_marginal flows (αs i)
    if maxAbsDiff nf flows < tol then nf
    else fwLoop pw net use_marginal αs tol (i + 1) fuel nf

/-- The flow vector after `n` unconditional Frank-Wolfe iterations from
the initial all-or-nothing assignment (used to state what the loop
returns). -/
def fwSeq (pw : ℚ → ℚ → ℚ) (net : NetworkData) (use_marginal : Bool)
    (αs : Nat → ℚ) : Nat → List ℚ
  | 0 => all_or_nothing net (compute_path_costs pw net (zero_edge_flows net) use_marginal)
  | n + 1 => fw_update pw net use_marginal (fwSeq pw net use_marginal αs n) (αs n)

/-- `solve_wardrop_equilibrium` (main.py lines 276-312).  `max_iter`
defaults to 1000 and `tol` to 1e-6 in the source. -/
def solve_wardrop_equilibrium (pw : ℚ → ℚ → ℚ) (net : NetworkData) (αs : Nat → ℚ)
    (max_iter : Nat) (tol : ℚ) : List ℚ × List (String × ℚ) :=
  if all_paths net = [] then ([], [])
  else
    let pf0 := all_or_nothing net (compute_path_costs pw net (zero_edge_flows net) false)
    let pf := fwLoop pw net false αs tol 0 max_iter pf0
    (pf, compute_edge_flows net pf)

/-- `solve_system_optimum` (main.py lines 314-351): same template with
marginal costs driving the direction step. -/
def solve_system_optimum (pw : ℚ → ℚ → ℚ) (net : NetworkData) (αs : Nat → ℚ)
    (max_iter : Nat) (tol : ℚ) : List ℚ × List (String × ℚ) :=
  if all_paths net = [] then ([], [])
  else
    let pf0 := all_or_nothing net (compute_path_costs pw net (zero_edge_flows net) true)
    let pf := fwLoop pw net true αs tol 0 max_iter pf0
    (pf, compute_edge_flows net pf)

/-- The source's default iteration budget. -/
def default_max_iter : Nat := 1000

/-- The source's default tolerance `1e-6`. -/
def default_tolerance : ℚ := 1 / 1000000

/-! ## Result formatting, tolls and the `/compute` pipeline -/

structure EdgeResult where
  id : String
  flow : ℚ
  cost : ℚ
  toll : ℚ
  congestion_level : ℚ
deriving DecidableEq

structure PathFlow where
  path : List String
  edges : List String
  flow : ℚ
deriving DecidableEq

structure EquilibriumResult where
  edge_results : List EdgeResult
  path_flows : List PathFlow
  total_system_cost : ℚ
  od_costs : List (String × ℚ)
deriving DecidableEq

structure ComputationResult where
  wardrop_equilibrium : EquilibriumResult
  system_optimum : EquilibriumResult
  price_of_anarchy : ℚ
  optimal_tolls : List (String × ℚ)
deriving DecidableEq

/-- `compute_optimal_tolls` (main.py lines 353-359):
`τ_e = f_e * t'_e(f_e)` over the system-optimum edge flows. -/
def compute_optimal_tolls (pw : ℚ → ℚ → ℚ) (net : NetworkData)
    (so_edge_flows : List (String × ℚ)) : List (String × ℚ) :=
  so_edge_flows.map (fun p =>
    match edge_data net p.1 with
    | some e => (p.1, p.2 * evaluate_cost_derivativeT pw e.cost_function p.2)
    | none => (p.1, 0))

/-- The formatted key `f"{od.origin}->{od.destination}"`. -/
def fmtKey (od : ODPair) : String :=
  od.origin ++ "->" ++ od.destination

/-- Maximum of a list of dict values (`max(edge_flows.values())`, only
called on non-empty dicts). -/
def valuesMax (m : List (String × ℚ)) : ℚ :=
  ((m.map (fun p => p.2)).foldl max ((m.map (fun p => p.2)).headD 0))

/-- The per-OD average cost computed by `format_results` (lines 398-411):
flow-weighted average when the OD's total flow is positive, otherwise the
minimum candidate-path cost. -/
def od_avg_cost (net : NetworkData) (pf : List ℚ) (path_costs : List ℚ) (o d : String) : ℚ :=
  let idxs := od_path_indices net o d
  let total_flow := (idxs.map (fun i => pf.getD i 0)).sum
  if 0 < total_flow then
    (idxs.map (fun i => pf.getD i 0 * path_costs.getD i 0)).sum / total_flow
  else
    ((idxs.map (fun i => path_costs.getD i 0)).foldl min ((idxs.map (fun i => path_costs.getD i 0)).headD 0))

/-- The body of the OD-cost loop of `format_results` (lines 401-411): OD
pairs without candidate indices are skipped, the rest store their rounded
average cost under the key `origin->destination` by dict assignment. -/
def odCostStep (pw : ℚ → ℚ → ℚ) (net : NetworkData) (pf : List ℚ)
    (ef : List (String × ℚ)) (m : List (String × ℚ)) (od : ODPair) : List (String × ℚ) :=
  if od_path_indices net od.origin od.destination = [] then m
  else
    dictSet m (fmtKey od)
      (round4 (od_avg_cost net pf (compute_path_costs pw net ef false) od.origin od.destination))

/-- `format_results` (main.py lines 361-418). -/
def format_results (pw : ℚ → ℚ → ℚ) (net : NetworkData) (pf : List ℚ)
    (ef : List (String × ℚ)) (tolls : Option (List (String × ℚ))) : EquilibriumResult :=
  let max_flow : ℚ := if ef ≠ [] ∧ 0 < valuesMax ef then valuesMax ef else 1
  let edge_results := ef.map (fun p =>
    let cost := match edge_data net p.1 with
      | some e => evaluate_costT pw e.cost_function p.2
      | none => 0
    let toll : ℚ := match tolls with
      | some ts => lookupD ts p.1
      | none => 0
    let congestion : ℚ := if 0 < max_flow then min (p.2 / max_flow) 1 else 0
    EdgeResult.mk p.1 (round4 p.2) (round4 cost) (round4 toll) (round4 congestion))
  let path_flow_results := ((all_paths net).zip pf).filterMap (fun q =>
    if 1 / 1000000 < q.2 then some (PathFlow.mk q.1.2.1 q.1.2.2 (round4 q.2)) else none)
  let total_cost := (ef.map (fun p =>
    match edge_data net p.1 with
    | some e => p.2 * evaluate_costT pw e.cost_function p.2
    | none => 0)).sum
  let od_costs := net.od_pairs.foldl (odCostStep pw net pf ef) []
  EquilibriumResult.mk edge_results path_flow_results (round4 total_cost) od_costs

/-- The solver pipeline of the `/compute` endpoint `compute_equilibrium`
(main.py lines 452-471), after input validation: both solves, tolls, the
guarded price of anarchy. -/
def compute_equilibrium (pw : ℚ → ℚ → ℚ) (net : NetworkData) (αsW αsSO : Nat → ℚ)
    (max_iter : Nat) (tol : ℚ) : ComputationResult :=
  let we := solve_wardrop_equilibrium pw net αsW max_iter tol
  let we_result := format_results pw net we.1 we.2 none
  let so := solve_system_optimum pw net αsSO max_iter tol
  let optimal_tolls := compute_optimal_tolls pw net so.2
  let so_result := format_results pw net so.1 so.2 (some optimal_tolls)
  let poa : ℚ := if 0 < so_result.total_system_cost then
      we_result.total_system_cost / so_result.total_system_cost
    else 1
  ComputationResult.mk we_result so_result (round4 poa)
    (optimal_tolls.map (fun p => (p.1, round4 p.2)))

/-! ## The engine as explicit state (for the frame property)

`TrafficAssignment.__init__` precomputes the shared structures; the
`solve_*` methods read them and assign only local variables (`path_flows`,
`edge_flows`, …; the numpy updates build fresh arrays and the dict `+=`
runs on a dict created inside `_compute_edge_flows`).  The state-passing
translation of such a method returns the receiver unchanged. -/

/-- The engine state after `TrafficAssignment.__init__`: the network plus
every precomputed shared structure. -/
structure Engine where
  network : NetworkData
  graph_succ : List (String × List String)
  edge_map_entries : List ((String × String) × String)
  edge_data_entries : List (String × Edge)
  paths_by_od_entries : List ((String × String) × List (List String))
  all_paths_entries : List ((String × String) × List String × List String)
deriving DecidableEq

/-- `TrafficAssignment.__init__` (lines 159-192): build the graph and the
path structures. -/
def TrafficAssignment.init (net : NetworkData) : Engine :=
  Engine.mk net
    ((pyKeys (net.edges.map (fun e => e.source))).map (fun u => (u, successors net u)))
    (net.edges.map (fun e => ((e.source, e.target), e.id)))
    (net.edges.map (fun e => (e.id, e)))
    (net.od_pairs.filterMap (fun od =>
      let paths := find_all_simple_paths net od.origin od.destination 50
      if paths = [] then none else some ((od.origin, od.destination), paths)))
    (all_paths net)

/-- State-passing translation of `solve_wardrop_equilibrium`: the method
assigns no attribute of `self`, so the state it returns is the state it
received. -/
def solve_wardrop_equilibrium_st (pw : ℚ → ℚ → ℚ) (e : Engine) (αs : Nat → ℚ)
    (max_iter : Nat) (tol : ℚ) : Engine × (List ℚ × List (String × ℚ)) :=
  (e, solve_wardrop_equilibrium pw e.network αs max_iter tol)

/-- State-passing translation of `solve_system_optimum`; like the
equilibrium solve it writes no attribute of `self`. -/
def solve_system_optimum_st (pw : ℚ → ℚ → ℚ) (e : Engine) (αs : Nat → ℚ)
    (max_iter : Nat) (tol : ℚ) : Engine × (List ℚ × List (String × ℚ)) :=
  (e, solve_system_optimum pw e.network αs max_iter tol)

/-! ## Utility lemmas -/

theorem mem_foldl_insert (l : List String) :
    ∀ (acc : List String) (x : String),
      x ∈ l.foldl (fun acc k => if k ∈ acc then acc else acc ++ [k]) acc ↔ x ∈ acc ∨ x ∈ l := by
  induction l with
  | nil => intro acc x; simp
  | cons a t ih =>
    intro acc x
    simp only [List.foldl_cons]
    by_cases ha : a ∈ acc
    · rw [if_pos ha, ih]
      constructor
      · rintro (h | h)
        · exact Or.inl h
        · exact Or.inr (List.mem_cons_of_mem _ h)
      · rintro (h | h)
        · exact Or.inl h
        · rcases List.mem_cons.1 h with rfl | h
          · exact Or.inl ha
          · exact Or.inr h
    · rw [if_neg ha, ih]
      simp only [List.mem_append, List.mem_singleton, List.mem_cons]
      tauto

theorem mem_pyKeys (l : List String) (x : String) : x ∈ pyKeys l ↔ x ∈ l := by
  rw [pyKeys, mem_foldl_insert]
  simp

theorem nodup_foldl_insert (l : List String) :
    ∀ (acc : List String), acc.Nodup →
      (l.foldl (fun acc k => if k ∈ acc then acc else acc ++ [k]) acc).Nodup := by
  induction l with
  | nil => intro acc h; exact h
  | cons a t ih =>
    intro acc h
    simp only [List.foldl_cons]
    by_cases ha : a ∈ acc
    · rw [if_pos ha]; exact ih _ h
    · rw [if_neg ha]
      refine ih _ ?_
      simp [List.nodup_append, h, ha]

theorem nodup_pyKeys (l : List String) : (pyKeys l).Nodup :=
  nodup_foldl_insert l [] List.nodup_nil

theorem getD_eq_zero_of_le {l : List ℚ} {i : Nat} (h : l.length ≤ i) : l.getD i 0 = 0 := by
  simp [List.getD_eq_getElem?_getD, List.getElem?_eq_none h]

theorem getD_replicate_zero (n i : Nat) : (List.replicate n (0 : ℚ)).getD i 0 = 0 := by
  rcases lt_or_le i n with h | h
  · simp [List.getD_eq_getElem?_getD, List.getElem?_replicate, h]
  · exact getD_eq_zero_of_le (by simpa using h)

theorem getD_set_self {l : List ℚ} {i : Nat} (a : ℚ) (h : i < l.length) :
    (l.set i a).getD i 0 = a := by
  simp [List.getD_eq_getElem?_getD, List.getElem?_set_self h]

theorem getD_set_ne {l : List ℚ} {i j : Nat} (a : ℚ) (h : i ≠ j) :
    (l.set i a).getD j 0 = l.getD j 0 := by
  simp [List.getD_eq_getElem?_getD, List.getElem?_set_ne h]

theorem vecCombine_length (f d : List ℚ) (α : ℚ) :
    (vecCombine f d α).length = min f.length d.length := by
  simp [vecCombine]

theorem getD_vecCombine {f d : List ℚ} {i : Nat} (α : ℚ)
    (hf : i < f.length) (hd : i < d.length) :
    (vecCombine f d α).getD i 0 = f.getD i 0 + α * (d.getD i 0 - f.getD i 0) := by
  have hz : i < (f.zip d).length := by rw [List.length_zip]; omega
  have hv : i < (vecCombine f d α).length := by rw [vecCombine_length]; omega
  rw [List.getD_eq_getElem?_getD, List.getElem?_eq_getElem hv,
    List.getD_eq_getElem?_getD, List.getElem?_eq_getElem hf,
    List.getD_eq_getElem?_getD, List.getElem?_eq_getElem hd]
  simp [vecCombine, List.getElem_zip]

/-! ## Structure of `all_paths` and `od_path_indices` -/

theorem mem_od_path_indices {net : NetworkData} {o d : String} {i : Nat} :
    i ∈ od_path_indices net o d ↔
      i < (all_paths net).length ∧ ((all_paths net).getD i emptyTrip).1 = (o, d) := by
  simp [od_path_indices, List.mem_filter, List.mem_range]

theorem nodup_od_path_indices (net : NetworkData) (o d : String) :
    (od_path_indices net o d).Nodup :=
  (List.nodup_range _).filter _

theorem od_path_indices_lt {net : NetworkData} {o d : String} {i : Nat}
    (h : i ∈ od_path_indices net o d) : i < (all_paths net).length :=
  (mem_od_path_indices.1 h).1

theorem od_path_indices_disjoint {net : NetworkData} {o d o' d' : String}
    (h : (o, d) ≠ (o', d')) {i : Nat}
    (h1 : i ∈ od_path_indices net o d) (h2 : i ∈ od_path_indices net o' d') : False := by
  rw [mem_od_path_indices] at h1 h2
  exact h ((h1.2.symm.trans h2.2))

theorem argmin_on_mem (costs : List ℚ) (i : Nat) (rest : List Nat) :
    argmin_on costs (i :: rest) ∈ i :: rest := by
  rw [argmin_on]
  have : ∀ (l : List Nat) (best : Nat), best ∈ i :: rest → (∀ j ∈ l, j ∈ i :: rest) →
      l.foldl (fun best j => if costs.getD j 0 < costs.getD best 0 then j else best) best
        ∈ i :: rest := by
    intro l
    induction l with
    | nil => intro best hb _; exact hb
    | cons a t ih =>
      intro best hb hl
      simp only [List.foldl_cons]
      by_cases hc : costs.getD a 0 < costs.getD best 0
      · rw [if_pos hc]
        exact ih _ (hl _ (List.mem_cons_self _ _)) (fun j hj => hl _ (List.mem_cons_of_mem _ hj))
      · rw [if_neg hc]
        exact ih _ hb (fun j hj => hl _ (List.mem_cons_of_mem _ hj))
  exact this rest i (List.mem_cons_self _ _) (fun j hj => List.mem_cons_of_mem _ hj)

theorem argmin_on_mem_of_ne_nil (costs : List ℚ) {idxs : List Nat} (h : idxs ≠ []) :
    argmin_on costs idxs ∈ idxs := by
  cases idxs with
  | nil => exact absurd rfl h
  | cons i rest => exact argmin_on_mem costs i rest

/-- Each triple of `all_paths` with key `(o, d)` comes from an OD pair
with that key, and its path list is the (shared) enumeration for the
key. -/
theorem mem_all_paths_iff {net : NetworkData} {trip : (String × String) × List String × List String} :
    trip ∈ all_paths net ↔
      ∃ od ∈ net.od_pairs, trip.1 = (od.origin, od.destination) ∧
        trip.2.1 ∈ find_all_simple_paths net od.origin od.destination 50 ∧
        trip.2.2 = path_to_edges net trip.2.1 := by
  simp only [all_paths, List.mem_flatMap]
  constructor
  · rintro ⟨od, hod, htrip⟩
    by_cases hp : find_all_simple_paths net od.origin od.destination 50 = []
    · rw [if_pos hp] at htrip; exact absurd htrip (List.not_mem_nil _)
    · rw [if_neg hp] at htrip
      obtain ⟨p, hpmem, rfl⟩ := List.mem_map.1 htrip
      exact ⟨od, hod, rfl, hpmem, rfl⟩
  · rintro ⟨od, hod, h1, h2, h3⟩
    refine ⟨od, hod, ?_⟩
    rw [if_neg (List.ne_nil_of_mem h2)]
    refine List.mem_map.2 ⟨trip.2.1, h2, ?_⟩
    rw [← h1, ← h3]

theorem od_path_indices_ne_nil {net : NetworkData} {od : ODPair}
    (hod : od ∈ net.od_pairs)
    (hne : find_all_simple_paths net od.origin od.destination 50 ≠ []) :
    od_path_indices net od.origin od.destination ≠ [] := by
  obtain ⟨p, hp⟩ := List.exists_mem_of_ne_nil _ hne
  have htrip : ((od.origin, od.destination), p, path_to_edges net p) ∈ all_paths net :=
    mem_all_paths_iff.2 ⟨od, hod, rfl, hp, rfl⟩
  obtain ⟨i, hi, hget⟩ := List.getElem_of_mem htrip
  intro hnil
  have : i ∈ od_path_indices net od.origin od.destination := by
    rw [mem_od_path_indices]
    refine ⟨hi, ?_⟩
    rw [List.getD_eq_getElem?_getD, List.getElem?_eq_getElem hi, Option.getD_some, hget]
  rw [hnil] at this
  exact List.not_mem_nil _ this

/-- The converse: a non-empty index list means the key's enumeration is
non-empty. -/
theorem find_paths_ne_nil_of_indices {net : NetworkData} {o d : String}
    (h : od_path_indices net o d ≠ []) :
    find_all_simple_paths net o d 50 ≠ [] := by
  obtain ⟨i, hi⟩ := List.exists_mem_of_ne_nil _ h
  rw [mem_od_path_indices] at hi
  have hmem : (all_paths net).getD i emptyTrip ∈ all_paths net := by
    rw [List.getD_eq_getElem?_getD, List.getElem?_eq_getElem hi.1, Option.getD_some]
    exact List.getElem_mem _
  obtain ⟨od, hod, hkey, hp, _⟩ := mem_all_paths_iff.1 hmem
  rw [hi.2] at hkey
  have ho : o = od.origin := congrArg Prod.fst hkey
  have hd : d = od.destination := congrArg Prod.snd hkey
  intro hnil
  refine List.ne_nil_of_mem hp ?_
  rw [← ho, ← hd]
  exact hnil

/-! ## All-or-nothing: length, frame, conservation, non-negativity -/

/-- Sum of the flows a vector assigns to the OD key `(o, d)`'s candidate
paths. -/
def odFlowSum (net : NetworkData) (o d : String) (pf : List ℚ) : ℚ :=
  ((od_path_indices net o d).map (fun i => pf.getD i 0)).sum

theorem aonStep_length (net : NetworkData) (costs flows : List ℚ) (od : ODPair) :
    (aonStep net costs flows od).length = flows.length := by
  rw [aonStep]
  split
  · split
    · rfl
    · exact List.length_set ..
  · rfl

theorem foldl_aonStep_length (net : NetworkData) (costs : List ℚ) (L : List ODPair) :
    ∀ flows : List ℚ, (L.foldl (aonStep net costs) flows).length = flows.length := by
  induction L with
  | nil => intro flows; rfl
  | cons od t ih =>
    intro flows
    rw [List.foldl_cons, ih, aonStep_length]

theorem all_or_nothing_length (net : NetworkData) (costs : List ℚ) :
    (all_or_nothing net costs).length = (all_paths net).length := by
  rw [all_or_nothing, foldl_aonStep_length, List.length_replicate]

theorem aonStep_getD_of_ne_key (net : NetworkData) (costs : List ℚ) (od : ODPair)
    {o d : String} (hK : (od.origin, od.destination) ≠ (o, d)) {i : Nat}
    (hi : i ∈ od_path_indices net o d) (flows : List ℚ) :
    (aonStep net costs flows od).getD i 0 = flows.getD i 0 := by
  rw [aonStep]
  split
  · split
    · rfl
    · rename_i hidx
      have hm := argmin_on_mem_of_ne_nil costs hidx
      have hne : argmin_on costs (od_path_indices net od.origin od.destination) ≠ i :=
        fun he => od_path_indices_disjoint hK (he ▸ hm) hi
      exact getD_set_ne _ hne
  · rfl

theorem foldl_aonStep_getD_frame (net : NetworkData) (costs : List ℚ)
    {o d : String} (L : List ODPair)
    (hL : ∀ od ∈ L, (od.origin, od.destination) ≠ (o, d)) {i : Nat}
    (hi : i ∈ od_path_indices net o d) :
    ∀ flows : List ℚ, (L.foldl (aonStep net costs) flows).getD i 0 = flows.getD i 0 := by
  induction L with
  | nil => intro flows; rfl
  | cons od t ih =>
    intro flows
    rw [List.foldl_cons, ih (fun x hx => hL x (List.mem_cons_of_mem _ hx)),
      aonStep_getD_of_ne_key net costs od (hL od (List.mem_cons_self _ _)) hi]

theorem sum_map_getD_set_of_zeros {f : List ℚ} {idxs : List Nat} (hnd : idxs.Nodup)
    {m : Nat} (hm : m ∈ idxs) (hlen : m < f.length) (v : ℚ)
    (hz : ∀ i ∈ idxs, i ≠ m → f.getD i 0 = 0) :
    (idxs.map (fun i => (f.set m v).getD i 0)).sum = v := by
  induction idxs with
  | nil => exact absurd hm (List.not_mem_nil _)
  | cons a t ih =>
    by_cases hma : m = a
    · subst hma
      have hnotin : m ∉ t := (List.nodup_cons.1 hnd).1
      have hzt : ∀ i ∈ t, (f.set m v).getD i 0 = 0 := by
        intro i hit
        have hia : i ≠ m := fun he => hnotin (he ▸ hit)
        rw [getD_set_ne _ (Ne.symm hia)]
        exact hz i (List.mem_cons_of_mem _ hit) hia
      rw [List.map_cons, List.sum_cons, getD_set_self _ hlen]
      have hzsum : (t.map (fun i => (f.set m v).getD i 0)).sum = 0 := by
        apply List.sum_eq_zero
        intro x hx
        obtain ⟨i, hit, rfl⟩ := List.mem_map.1 hx
        exact hzt i hit
      rw [hzsum, add_zero]
    · have hmt : m ∈ t := by
        rcases List.mem_cons.1 hm with he | h
        · exact absurd he hma
        · exact h
      rw [List.map_cons, List.sum_cons, getD_set_ne _ hma,
        hz a (List.mem_cons_self _ _) (fun he => hma he.symm),
        ih (List.nodup_cons.1 hnd).2 hmt
          (fun i hit him => hz i (List.mem_cons_of_mem _ hit) him),
        zero_add]

theorem paths_by_od_isSome {net : NetworkData} {od : ODPair} (hod : od ∈ net.od_pairs)
    (hne : find_all_simple_paths net od.origin od.destination 50 ≠ []) :
    (paths_by_od net od.origin od.destination).isSome = true := by
  rw [paths_by_od, if_pos]
  · rfl
  · refine ⟨?_, hne⟩
    refine List.any_eq_true.2 ⟨od, hod, ?_⟩
    simp

theorem odFlowSum_congr {net : NetworkData} {o d : String} {f g : List ℚ}
    (h : ∀ i ∈ od_path_indices net o d, f.getD i 0 = g.getD i 0) :
    odFlowSum net o d f = odFlowSum net o d g := by
  rw [odFlowSum, odFlowSum]
  congr 1
  exact List.map_congr_left h

/-- Mass conservation of the all-or-nothing assignment: with pairwise
distinct OD keys, the demand written for an OD pair with candidate paths
is exactly the sum over its candidate indices. -/
theorem all_or_nothing_odFlowSum (net : NetworkData) (costs : List ℚ)
    (hkeys : (net.od_pairs.map (fun od => (od.origin, od.destination))).Nodup)
    (od : ODPair) (hod : od ∈ net.od_pairs)
    (hne : find_all_simple_paths net od.origin od.destination 50 ≠ []) :
    odFlowSum net od.origin od.destination (all_or_nothing net costs) = od.demand := by
  obtain ⟨L1, L2, hsplit⟩ := List.append_of_mem hod
  have hkeys' := hkeys
  rw [hsplit, List.map_append, List.map_cons] at hkeys'
  have hnodup := List.nodup_append.1 hkeys'
  have hL1 : ∀ od' ∈ L1, (od'.origin, od'.destination) ≠ (od.origin, od.destination) := by
    intro od' h1 he
    refine hnodup.2.2 (List.mem_map_of_mem _ h1) ?_
    rw [he]
    exact List.mem_cons_self _ _
  have hL2 : ∀ od' ∈ L2, (od'.origin, od'.destination) ≠ (od.origin, od.destination) := by
    intro od' h2 he
    have := (List.nodup_cons.1 hnodup.2.1).1
    exact this (he ▸ List.mem_map_of_mem (fun x => (x.origin, x.destination)) h2)
  rw [all_or_nothing, hsplit, List.foldl_append, List.foldl_cons]
  set f0 : List ℚ := List.replicate (all_paths net).length 0 with hf0
  set f1 := L1.foldl (aonStep net costs) f0 with hf1
  have hf1len : f1.length = (all_paths net).length := by
    rw [hf1, foldl_aonStep_length, hf0, List.length_replicate]
  have hf1zero : ∀ i ∈ od_path_indices net od.origin od.destination, f1.getD i 0 = 0 := by
    intro i hi
    rw [hf1, foldl_aonStep_getD_frame net costs L1 hL1 hi f0, hf0]
    exact getD_replicate_zero _ _
  have hidx : od_path_indices net od.origin od.destination ≠ [] :=
    od_path_indices_ne_nil hod hne
  have hstep : aonStep net costs f1 od =
      f1.set (argmin_on costs (od_path_indices net od.origin od.destination)) od.demand := by
    rw [aonStep, if_pos (paths_by_od_isSome hod hne), if_neg hidx]
  have hm := argmin_on_mem_of_ne_nil costs hidx
  have hmlt : argmin_on costs (od_path_indices net od.origin od.destination) < f1.length := by
    rw [hf1len]; exact od_path_indices_lt hm
  have hsum2 : odFlowSum net od.origin od.destination (aonStep net costs f1 od) = od.demand := by
    rw [hstep, odFlowSum]
    exact sum_map_getD_set_of_zeros (nodup_od_path_indices net _ _) hm hmlt od.demand
      (fun i hi _ => hf1zero i hi)
  have hframe2 : ∀ i ∈ od_path_indices net od.origin od.destination,
      (L2.foldl (aonStep net costs) (aonStep net costs f1 od)).getD i 0 =
        (aonStep net costs f1 od).getD i 0 := by
    intro i hi
    exact foldl_aonStep_getD_frame net costs L2 hL2 hi _
  rw [odFlowSum_congr hframe2, hsum2]

theorem aonStep_nonneg (net : NetworkData) (costs : List ℚ) (od : ODPair)
    {flows : List ℚ} (hf : ∀ i, 0 ≤ flows.getD i 0) (hd : 0 ≤ od.demand) :
    ∀ i, 0 ≤ (aonStep net costs flows od).getD i 0 := by
  intro i
  rw [aonStep]
  split
  · split
    · exact hf i
    · rcases le_or_lt flows.length (argmin_on costs (od_path_indices net od.origin od.destination))
        with hle | hlt
      · rw [List.set_eq_of_length_le hle]
        exact hf i
      · by_cases he : argmin_on costs (od_path_indices net od.origin od.destination) = i
        · rw [← he, getD_set_self _ hlt]
          exact hd
        · rw [getD_set_ne _ he]
          exact hf i
  · exact hf i

theorem all_or_nothing_nonneg (net : NetworkData) (costs : List ℚ)
    (hd : ∀ od ∈ net.od_pairs, 0 ≤ od.demand) :
    ∀ i, 0 ≤ (all_or_nothing net costs).getD i 0 := by
  rw [all_or_nothing]
  have : ∀ (L : List ODPair), (∀ od ∈ L, 0 ≤ od.demand) →
      ∀ flows : List ℚ, (∀ i, 0 ≤ flows.getD i 0) →
        ∀ i, 0 ≤ (L.foldl (aonStep net costs) flows).getD i 0 := by
    intro L
    induction L with
    | nil => intro _ flows hf i; exact hf i
    | cons od t ih =>
      intro hL flows hf i
      rw [List.foldl_cons]
      exact ih (fun x hx => hL x (List.mem_cons_of_mem _ hx)) _
        (aonStep_nonneg net costs od hf (hL od (List.mem_cons_self _ _))) i
  exact this net.od_pairs hd _ (fun i => le_of_eq (getD_replicate_zero _ i).symm)

/-! ## Frank-Wolfe loop invariants -/

theorem fw_update_length (pw : ℚ → ℚ → ℚ) (net : NetworkData) (um : Bool)
    {flows : List ℚ} (hlen : flows.length = (all_paths net).length) (α : ℚ) :
    (fw_update pw net um flows α).length = (all_paths net).length := by
  rw [fw_update, vecCombine_length, all_or_nothing_length, hlen, min_self]

theorem fw_update_odFlowSum (pw : ℚ → ℚ → ℚ) (net : NetworkData) (um : Bool)
    (hkeys : (net.od_pairs.map (fun od => (od.origin, od.destination))).Nodup)
    (od : ODPair) (hod : od ∈ net.od_pairs)
    (hne : find_all_simple_paths net od.origin od.destination 50 ≠ [])
    {flows : List ℚ} (hlen : flows.length = (all_paths net).length)
    (hsum : odFlowSum net od.origin od.destination flows = od.demand) (α : ℚ) :
    odFlowSum net od.origin od.destination (fw_update pw net um flows α) = od.demand := by
  rw [fw_update]
  set costs := compute_path_costs pw net (compute_edge_flows net flows) um with hc
  set dir := all_or_nothing net costs with hdir
  have hdlen : dir.length = (all_paths net).length := all_or_nothing_length net costs
  have hdsum : odFlowSum net od.origin od.destination dir = od.demand :=
    all_or_nothing_odFlowSum net costs hkeys od hod hne
  have hget : ∀ i ∈ od_path_indices net od.origin od.destination,
      (vecCombine flows dir α).getD i 0 =
        flows.getD i 0 + α * (dir.getD i 0 - flows.getD i 0) := by
    intro i hi
    exact getD_vecCombine α (hlen ▸ od_path_indices_lt hi) (hdlen ▸ od_path_indices_lt hi)
  calc odFlowSum net od.origin od.destination (vecCombine flows dir α)
      = ((od_path_indices net od.origin od.destination).map
          (fun i => flows.getD i 0 + α * (dir.getD i 0 - flows.getD i 0))).sum := by
        rw [odFlowSum]
        congr 1
        exact List.map_congr_left hget
    _ = odFlowSum net od.origin od.destination flows +
          α * (odFlowSum net od.origin od.destination dir -
            odFlowSum net od.origin od.destination flows) := by
        simp only [odFlowSum]
        generalize od_path_indices net od.origin od.destination = idxs
        induction idxs with
        | nil => simp
        | cons a t ih =>
          simp only [List.map_cons, List.sum_cons]
          rw [ih]
          ring
    _ = od.demand := by rw [hsum, hdsum]; ring

theorem fw_update_nonneg (pw : ℚ → ℚ → ℚ) (net : NetworkData) (um : Bool)
    (hd : ∀ od ∈ net.od_pairs, 0 ≤ od.demand)
    {flows : List ℚ} (hf : ∀ i, 0 ≤ flows.getD i 0) {α : ℚ}
    (hα0 : 0 ≤ α) (hα1 : α ≤ 1) :
    ∀ i, 0 ≤ (fw_update pw net um flows α).getD i 0 := by
  intro i
  rw [fw_update]
  set costs := compute_path_costs pw net (compute_edge_flows net flows) um with hc
  set dir := all_or_nothing net costs with hdir
  have hdnn : ∀ j, 0 ≤ dir.getD j 0 := all_or_nothing_nonneg net costs hd
  rcases le_or_lt (min flows.length dir.length) i with hle | hlt
  · rw [getD_eq_zero_of_le (le_trans (le_of_eq (vecCombine_length ..)) hle)]
  · have hfl : i < flows.length := lt_of_lt_of_le hlt (min_le_left ..)
    have hdl : i < dir.length := lt_of_lt_of_le hlt (min_le_right ..)
    rw [getD_vecCombine α hfl hdl]
    have h1 : flows.getD i 0 + α * (dir.getD i 0 - flows.getD i 0) =
        (1 - α) * flows.getD i 0 + α * dir.getD i 0 := by ring
    rw [h1]
    have h2 := hf i
    have h3 := hdnn i
    have h4 : 0 ≤ (1 - α) * flows.getD i 0 := mul_nonneg (by linarith) h2
    have h5 : 0 ≤ α * dir.getD i 0 := mul_nonneg hα0 h3
    linarith

theorem fwLoop_length (pw : ℚ → ℚ → ℚ) (net : NetworkData) (um : Bool)
    (αs : Nat → ℚ) (tol : ℚ) :
    ∀ (fuel i : Nat) {flows : List ℚ}, flows.length = (all_paths net).length →
      (fwLoop pw net um αs tol i fuel flows).length = (all_paths net).length := by
  intro fuel
  induction fuel with
  | zero => intro i flows h; exact h
  | succ n ih =>
    intro i flows h
    rw [fwLoop]
    split
    · exact fw_update_length pw net um h _
    · exact ih _ (fw_update_length pw net um h _)

theorem fwLoop_odFlowSum (pw : ℚ → ℚ → ℚ) (net : NetworkData) (um : Bool)
    (αs : Nat → ℚ) (tol : ℚ)
    (hkeys : (net.od_pairs.map (fun od => (od.origin, od.destination))).Nodup)
    (od : ODPair) (hod : od ∈ net.od_pairs)
    (hne : find_all_simple_paths net od.origin od.destination 50 ≠ []) :
    ∀ (fuel i : Nat) {flows : List ℚ}, flows.length = (all_paths net).length →
      odFlowSum net od.origin od.destination flows = od.demand →
      odFlowSum net od.origin od.destination (fwLoop pw net um αs tol i fuel flows) =
        od.demand := by
  intro fuel
  induction fuel with
  | zero => intro i flows _ h; exact h
  | succ n ih =>
    intro i flows hlen hsum
    rw [fwLoop]
    split
    · exact fw_update_odFlowSum pw net um hkeys od hod hne hlen hsum _
    · exact ih _ (fw_update_length pw net um hlen _)
        (fw_update_odFlowSum pw net um hkeys od hod hne hlen hsum _)

theorem fwLoop_nonneg (pw : ℚ → ℚ → ℚ) (net : NetworkData) (um : Bool)
    (αs : Nat → ℚ) (tol : ℚ)
    (hd : ∀ od ∈ net.od_pairs, 0 ≤ od.demand)
    (hα : ∀ i, 0 ≤ αs i ∧ αs i ≤ 1) :
    ∀ (fuel i : Nat) {flows : List ℚ}, (∀ j, 0 ≤ flows.getD j 0) →
      ∀ j, 0 ≤ (fwLoop pw net um αs tol i fuel flows).getD j 0 := by
  intro fuel
  induction fuel with
  | zero => intro i flows h; exact h
  | succ n ih =>
    intro i flows hf
    rw [fwLoop]
    split
    · exact fw_update_nonneg pw net um hd hf (hα i).1 (hα i).2
    · exact ih _ (fw_update_nonneg pw net um hd hf (hα i).1 (hα i).2)

theorem compute_edge_flows_nonneg (net : NetworkData) {pf : List ℚ}
    (hf : ∀ i, 0 ≤ pf.getD i 0) :
    ∀ p ∈ compute_edge_flows net pf, 0 ≤ p.2 := by
  intro p hp
  obtain ⟨eid, _, rfl⟩ := List.mem_map.1 hp
  show (0 : ℚ) ≤ edge_flow_val net pf eid
  rw [edge_flow_val]
  apply Finset.sum_nonneg
  intro i _
  exact mul_nonneg (Nat.cast_nonneg _) (hf i)

theorem all_paths_ne_nil_of_od {net : NetworkData} {od : ODPair} (hod : od ∈ net.od_pairs)
    (hne : find_all_simple_paths net od.origin od.destination 50 ≠ []) :
    all_paths net ≠ [] := by
  have h := od_path_indices_ne_nil hod hne
  obtain ⟨i, hi⟩ := List.exists_mem_of_ne_nil _ h
  have hlt := od_path_indices_lt hi
  intro hnil
  rw [hnil] at hlt
  exact Nat.not_lt_zero i hlt

/-- C1 (amended: OD pairs carry pairwise distinct `(origin, destination)`
keys).  Mass conservation: for every network with distinct OD keys, every
step-size oracle, and every OD pair with at least one candidate path, the
flows that `solve_wardrop_equilibrium` and `solve_system_optimum` assign
to that OD pair's candidate paths sum exactly (hence within any
tolerance) to its demand: the all-or-nothing assignment puts the whole
demand on one candidate path and every iterate is a convex combination of
two conserving vectors. -/
theorem mass_conservation_solvers (pw : ℚ → ℚ → ℚ) (net : NetworkData)
    (αsW αsSO : Nat → ℚ) (max_iter : Nat) (tol : ℚ)
    (hkeys : (net.od_pairs.map (fun od => (od.origin, od.destination))).Nodup)
    (od : ODPair) (hod : od ∈ net.od_pairs)
    (hne : find_all_simple_paths net od.origin od.destination 50 ≠ []) :
    odFlowSum net od.origin od.destination
        (solve_wardrop_equilibrium pw net αsW max_iter tol).1 = od.demand ∧
      odFlowSum net od.origin od.destination
        (solve_system_optimum pw net αsSO max_iter tol).1 = od.demand := by
  have hap := all_paths_ne_nil_of_od hod hne
  constructor
  · rw [solve_wardrop_equilibrium, if_neg hap]
    exact fwLoop_odFlowSum pw net false αsW tol hkeys od hod hne max_iter 0
      (all_or_nothing_length ..) (all_or_nothing_odFlowSum _ _ hkeys od hod hne)
  · rw [solve_system_optimum, if_neg hap]
    exact fwLoop_odFlowSum pw net true αsSO tol hkeys od hod hne max_iter 0
      (all_or_nothing_length ..) (all_or_nothing_odFlowSum _ _ hkeys od hod hne)

/-- C2.  Non-negativity: with non-negative demands and line-search steps
in `[0, 1]`, every path-flow entry and every edge-flow value returned by
either solver is non-negative (hence `≥ -ε` for every `ε > 0`). -/
theorem flows_nonneg_solvers (pw : ℚ → ℚ → ℚ) (net : NetworkData)
    (αsW αsSO : Nat → ℚ) (max_iter : Nat) (tol : ℚ)
    (hd : ∀ od ∈ net.od_pairs, 0 ≤ od.demand)
    (hαW : ∀ i, 0 ≤ αsW i ∧ αsW i ≤ 1) (hαSO : ∀ i, 0 ≤ αsSO i ∧ αsSO i ≤ 1) :
    (∀ i, 0 ≤ (solve_wardrop_equilibrium pw net αsW max_iter tol).1.getD i 0) ∧
      (∀ p ∈ (solve_wardrop_equilibrium pw net αsW max_iter tol).2, 0 ≤ p.2) ∧
      (∀ i, 0 ≤ (solve_system_optimum pw net αsSO max_iter tol).1.getD i 0) ∧
      (∀ p ∈ (solve_system_optimum pw net αsSO max_iter tol).2, 0 ≤ p.2) := by
  by_cases hap : all_paths net = []
  · rw [solve_wardrop_equilibrium, if_pos hap, solve_system_optimum, if_pos hap]
    refine ⟨fun i => ?_, fun p hp => absurd hp (List.not_mem_nil _),
      fun i => ?_, fun p hp => absurd hp (List.not_mem_nil _)⟩ <;>
      simp [List.getD]
  · have hW : ∀ i, 0 ≤ ((fwLoop pw net false αsW tol 0 max_iter
        (all_or_nothing net (compute_path_costs pw net (zero_edge_flows net) false)))).getD i 0 :=
      fwLoop_nonneg pw net false αsW tol hd hαW max_iter 0
        (all_or_nothing_nonneg net _ hd)
    have hSO : ∀ i, 0 ≤ ((fwLoop pw net true αsSO tol 0 max_iter
        (all_or_nothing net (compute_path_costs pw net (zero_edge_flows net) true)))).getD i 0 :=
      fwLoop_nonneg pw net true αsSO tol hd hαSO max_iter 0
        (all_or_nothing_nonneg net _ hd)
    rw [solve_wardrop_equilibrium, if_neg hap, solve_system_optimum, if_neg hap]
    exact ⟨hW, compute_edge_flows_nonneg net hW, hSO, compute_edge_flows_nonneg net hSO⟩

/-- The Frank-Wolfe iteration at index `k` converges: the maximum
absolute per-path change from iterate `k` to iterate `k+1` is below the
tolerance. -/
def fwConv (pw : ℚ → ℚ → ℚ) (net : NetworkData) (um : Bool) (αs : Nat → ℚ)
    (tol : ℚ) (k : Nat) : Prop :=
  maxAbsDiff (fwSeq pw net um αs (k + 1)) (fwSeq pw net um αs k) < tol

theorem fwLoop_char (pw : ℚ → ℚ → ℚ) (net : NetworkData) (um : Bool)
    (αs : Nat → ℚ) (tol : ℚ) :
    ∀ (fuel i : Nat),
      (∀ N, i ≤ N → N < i + fuel → fwConv pw net um αs tol N →
        (∀ k, i ≤ k → k < N → ¬ fwConv pw net um αs tol k) →
        fwLoop pw net um αs tol i fuel (fwSeq pw net um αs i) = fwSeq pw net um αs (N + 1)) ∧
      ((∀ k, i ≤ k → k < i + fuel → ¬ fwConv pw net um αs tol k) →
        fwLoop pw net um αs tol i fuel (fwSeq pw net um αs i) = fwSeq pw net um αs (i + fuel)) := by
  intro fuel
  induction fuel with
  | zero =>
    intro i
    constructor
    · intro N h1 h2
      omega
    · intro _
      rfl
  | succ n ih =>
    intro i
    have hnf : fw_update pw net um (fwSeq pw net um αs i) (αs i) = fwSeq pw net um αs (i + 1) :=
      rfl
    by_cases hc : fwConv pw net um αs tol i
    · have hc' : maxAbsDiff (fwSeq pw net um αs (i + 1)) (fwSeq pw net um αs i) < tol := hc
      have hstep : fwLoop pw net um αs tol i (n + 1) (fwSeq pw net um αs i) =
          fwSeq pw net um αs (i + 1) := by
        rw [fwLoop, hnf, if_pos hc']
      constructor
      · intro N h1 h2 hconv hmin
        have hNi : N = i := by
          by_contra hne
          exact hmin i (le_refl i) (by omega) hc
        rw [hNi, hstep]
      · intro hall
        exact absurd hc (hall i (le_refl i) (by omega))
    · have hc' : ¬ maxAbsDiff (fwSeq pw net um αs (i + 1)) (fwSeq pw net um αs i) < tol := hc
      have hstep : fwLoop pw net um αs tol i (n + 1) (fwSeq pw net um αs i) =
          fwLoop pw net um αs tol (i + 1) n (fwSeq pw net um αs (i + 1)) := by
        rw [fwLoop, hnf, if_neg hc']
      constructor
      · intro N h1 h2 hconv hmin
        have hNi : i + 1 ≤ N := by
          rcases Nat.eq_or_lt_of_le h1 with rfl | h
          · exact absurd hconv hc
          · omega
        rw [hstep]
        exact (ih (i + 1)).1 N hNi (by omega) hconv (fun k hk1 hk2 => hmin k (by omega) hk2)
      · intro hall
        rw [hstep]
        have := (ih (i + 1)).2 (fun k hk1 hk2 => hall k (by omega) (by omega))
        rw [this]
        congr 1
        omega

theorem fwLoop_top_char (pw : ℚ → ℚ → ℚ) (net : NetworkData) (um : Bool)
    (αs : Nat → ℚ) (tol : ℚ) (mi : Nat) :
    (∀ N, N < mi → fwConv pw net um αs tol N →
      (∀ k, k < N → ¬ fwConv pw net um αs tol k) →
      fwLoop pw net um αs tol 0 mi (fwSeq pw net um αs 0) = fwSeq pw net um αs (N + 1)) ∧
    ((∀ k, k < mi → ¬ fwConv pw net um αs tol k) →
      fwLoop pw net um αs tol 0 mi (fwSeq pw net um αs 0) = fwSeq pw net um αs mi) ∧
    (∃ n, n ≤ mi ∧ fwLoop pw net um αs tol 0 mi (fwSeq pw net um αs 0) = fwSeq pw net um αs n) := by
  obtain ⟨h1, h2⟩ := fwLoop_char pw net um αs tol mi 0
  refine ⟨fun N hN hc hmin => h1 N (Nat.zero_le N) (by omega) hc
      (fun k _ hk2 => hmin k hk2),
    fun hall => by rw [h2 (fun k _ hk2 => hall k (by omega))]; congr 1; omega, ?_⟩
  by_cases hall : ∀ k, k < mi → ¬ fwConv pw net um αs tol k
  · refine ⟨mi, le_refl mi, ?_⟩
    rw [h2 (fun k _ hk2 => hall k (by omega))]
    congr 1
    omega
  · push_neg at hall
    obtain ⟨k0, hk0, hc0⟩ := hall
    classical
    have hex : ∃ k, fwConv pw net um αs tol k := ⟨k0, hc0⟩
    set N := Nat.find hex with hN
    have hNle : N ≤ k0 := Nat.find_le hc0
    have hNlt : N < mi := lt_of_le_of_lt hNle hk0
    refine ⟨N + 1, by omega, ?_⟩
    exact h1 N (Nat.zero_le N) (by omega) (Nat.find_spec hex)
      (fun k _ hk2 => Nat.find_min hex hk2)

/-- C5.  Termination and non-convergence behaviour: with a non-empty
candidate-path list, each solver's returned flow vector is `fwSeq` at
some index `≤ max_iter` (at most `max_iter` Frank-Wolfe iterations are
performed, each applying `fw_update` once); if `N` is the first iteration
whose maximum absolute per-path change is below the tolerance, the
solver stops there and accepts the new iterate `fwSeq (N+1)`; and if no
iteration below `max_iter` converges the solver returns the last
computed iterate `fwSeq max_iter` — returning a value in every case
rather than raising. -/
theorem termination_contract (pw : ℚ → ℚ → ℚ) (net : NetworkData)
    (αsW αsSO : Nat → ℚ) (max_iter : Nat) (tol : ℚ) (hap : all_paths net ≠ []) :
    ((∀ N, N < max_iter → fwConv pw net false αsW tol N →
        (∀ k, k < N → ¬ fwConv pw net false αsW tol k) →
        (solve_wardrop_equilibrium pw net αsW max_iter tol).1 =
          fwSeq pw net false αsW (N + 1)) ∧
      ((∀ k, k < max_iter → ¬ fwConv pw net false αsW tol k) →
        (solve_wardrop_equilibrium pw net αsW max_iter tol).1 =
          fwSeq pw net false αsW max_iter) ∧
      (∃ n, n ≤ max_iter ∧ (solve_wardrop_equilibrium pw net αsW max_iter tol).1 =
          fwSeq pw net false αsW n)) ∧
    ((∀ N, N < max_iter → fwConv pw net true αsSO tol N →
        (∀ k, k < N → ¬ fwConv pw net true αsSO tol k) →
        (solve_system_optimum pw net αsSO max_iter tol).1 =
          fwSeq pw net true αsSO (N + 1)) ∧
      ((∀ k, k < max_iter → ¬ fwConv pw net true αsSO tol k) →
        (solve_system_optimum pw net αsSO max_iter tol).1 =
          fwSeq pw net true αsSO max_iter) ∧
      (∃ n, n ≤ max_iter ∧ (solve_system_optimum pw net αsSO max_iter tol).1 =
          fwSeq pw net true αsSO n)) := by
  have hW : (solve_wardrop_equilibrium pw net αsW max_iter tol).1 =
      fwLoop pw net false αsW tol 0 max_iter (fwSeq pw net false αsW 0) := by
    rw [solve_wardrop_equilibrium, if_neg hap]
    rfl
  have hSO : (solve_system_optimum pw net αsSO max_iter tol).1 =
      fwLoop pw net true αsSO tol 0 max_iter (fwSeq pw net true αsSO 0) := by
    rw [solve_system_optimum, if_neg hap]
    rfl
  obtain ⟨w1, w2, w3⟩ := fwLoop_top_char pw net false αsW tol max_iter
  obtain ⟨s1, s2, s3⟩ := fwLoop_top_char pw net true αsSO tol max_iter
  refine ⟨⟨fun N h1 h2 h3 => by rw [hW, w1 N h1 h2 h3],
      fun h => by rw [hW, w2 h], ?_⟩,
    ⟨fun N h1 h2 h3 => by rw [hSO, s1 N h1 h2 h3],
      fun h => by rw [hSO, s2 h], ?_⟩⟩
  · obtain ⟨n, hn, he⟩ := w3
    exact ⟨n, hn, by rw [hW, he]⟩
  · obtain ⟨n, hn, he⟩ := s3
    exact ⟨n, hn, by rw [hSO, he]⟩

/-! ## Path enumerator: soundness and completeness of the DFS model -/

theorem mem_successors (net : NetworkData) (u v : String) :
    v ∈ successors net u ↔ ∃ e ∈ net.edges, e.source = u ∧ e.target = v := by
  rw [successors, mem_pyKeys, List.mem_filterMap]
  constructor
  · rintro ⟨e, he, hf⟩
    by_cases h : e.source = u
    · rw [if_pos h] at hf
      exact ⟨e, he, h, Option.some.inj hf⟩
    · rw [if_neg h] at hf
      exact absurd hf (by simp)
  · rintro ⟨e, he, hsu, htv⟩
    exact ⟨e, he, by rw [if_pos hsu, htv]⟩

theorem hasEdge_iff (net : NetworkData) (u v : String) :
    (net.edges.any (fun e => e.source = u && e.target = v)) = true ↔
      ∃ e ∈ net.edges, e.source = u ∧ e.target = v := by
  simp [List.any_eq_true]

theorem mem_successors_hasEdge (net : NetworkData) (u v : String) :
    v ∈ successors net u ↔ (net.edges.any (fun e => e.source = u && e.target = v)) = true := by
  rw [mem_successors, hasEdge_iff]

theorem getLast?_cons_of_ne_nil {l : List String} (a : String) (h : l ≠ []) :
    (a :: l).getLast? = l.getLast? := by
  cases l with
  | nil => exact absurd rfl h
  | cons b t => exact List.getLast?_cons_cons ..

/-- Characterisation of the DFS: its results are exactly the extensions
of the visited stack by a simple chain from `u` to `t` that avoids the
visited nodes and uses at most `fuel` edges. -/
theorem dfsPaths_mem (net : NetworkData) (t : String) :
    ∀ (fuel : Nat) (vis : List String) (u : String), u ∉ vis →
      ∀ p : List String,
        (p ∈ dfsPaths net t fuel vis u ↔
          ∃ ext : List String, p = vis.reverse ++ ext ∧ ext.head? = some u ∧
            ext.getLast? = some t ∧
            List.Chain' (fun a b =>
              (net.edges.any (fun e => e.source = a && e.target = b)) = true) ext ∧
            ext.Nodup ∧ (∀ x ∈ ext, x ∉ vis) ∧ ext.length ≤ fuel + 1) := by
  intro fuel
  induction fuel with
  | zero =>
    intro vis u hu p
    rw [dfsPaths]
    by_cases hut : u = t
    · subst hut
      rw [if_pos rfl]
      simp only [List.mem_singleton]
      constructor
      · rintro rfl
        refine ⟨[u], by simp, rfl, rfl, List.chain'_singleton u, List.nodup_singleton u,
          ?_, by simp⟩
        intro x hx
        rw [List.mem_singleton] at hx
        subst hx
        exact hu
      · rintro ⟨ext, rfl, hh, hl, _, hnd, _, hlen⟩
        cases ext with
        | nil => exact absurd hh (by simp)
        | cons a rest =>
          have ha : a = u := by simpa using hh
          subst ha
          cases rest with
          | nil => simp
          | cons b t2 => simp at hlen
    · rw [if_neg hut]
      simp only [List.not_mem_nil, false_iff, not_exists]
      intro ext
      rintro ⟨rfl, hh, hl, _, _, _, hlen⟩
      cases ext with
      | nil => exact absurd hh (by simp)
      | cons a rest =>
        have ha : a = u := by simpa using hh
        subst ha
        cases rest with
        | nil =>
          apply hut
          simpa using hl
        | cons b t2 => simp at hlen
  | succ n ih =>
    intro vis u hu p
    rw [dfsPaths]
    by_cases hut : u = t
    · subst hut
      rw [if_pos rfl]
      simp only [List.mem_singleton]
      constructor
      · rintro rfl
        refine ⟨[u], by simp, rfl, rfl, List.chain'_singleton u, List.nodup_singleton u,
          ?_, by simp⟩
        intro x hx
        rw [List.mem_singleton] at hx
        subst hx
        exact hu
      · rintro ⟨ext, rfl, hh, hl, _, hnd, _, _⟩
        cases ext with
        | nil => exact absurd hh (by simp)
        | cons a rest =>
          have ha : a = u := by simpa using hh
          subst ha
          cases rest with
          | nil => simp
          | cons b t2 =>
            exfalso
            have hlast : (b :: t2).getLast? = some a := by
              rw [← getLast?_cons_of_ne_nil a (by simp)]
              exact hl
            have humem : a ∈ b :: t2 := List.mem_of_getLast?_eq_some hlast
            exact (List.nodup_cons.1 hnd).1 humem
    · rw [if_neg hut]
      simp only [List.mem_flatMap]
      constructor
      · rintro ⟨v, hv, hp⟩
        by_cases hvv : v ∈ u :: vis
        · rw [if_pos hvv] at hp
          exact absurd hp (List.not_mem_nil _)
        · rw [if_neg hvv] at hp
          obtain ⟨ext', hp', hh', hl', hc', hnd', hav', hlen'⟩ :=
            (ih (u :: vis) v hvv p).1 hp
          refine ⟨u :: ext', ?_, rfl, ?_, ?_, ?_, ?_, ?_⟩
          · rw [hp', List.reverse_cons, List.append_assoc]
            rfl
          · rw [getLast?_cons_of_ne_nil u (by rintro rfl; simp at hh')]
            exact hl'
          · rw [List.chain'_cons']
            refine ⟨?_, hc'⟩
            intro y hy
            rw [hh', Option.mem_some_iff] at hy
            subst hy
            exact (mem_successors_hasEdge net u v).1 hv
          · rw [List.nodup_cons]
            refine ⟨fun hmem => (hav' u hmem) (List.mem_cons_self _ _), hnd'⟩
          · intro x hx
            rcases List.mem_cons.1 hx with rfl | hx'
            · exact hu
            · exact fun hxv => (hav' x hx') (List.mem_cons_of_mem _ hxv)
          · rw [List.length_cons]
            omega
      · rintro ⟨ext, rfl, hh, hl, hc, hnd, hav, hlen⟩
        cases ext with
        | nil => exact absurd hh (by simp)
        | cons a rest =>
          have ha : a = u := by simpa using hh
          subst ha
          cases rest with
          | nil =>
            exfalso
            apply hut
            simpa using hl
          | cons v rest' =>
            refine ⟨v, ?_, ?_⟩
            · refine (mem_successors_hasEdge net a v).2 ?_
              exact (List.chain'_cons.1 hc).1
            · have hvnotin : v ∉ a :: vis := by
                intro hv
                rcases List.mem_cons.1 hv with rfl | hv'
                · exact (List.nodup_cons.1 hnd).1 (List.mem_cons_self _ _)
                · exact (hav v (List.mem_cons_of_mem _ (List.mem_cons_self _ _))) hv'
              rw [if_neg hvnotin]
              refine (ih (a :: vis) v hvnotin _).2 ⟨v :: rest', ?_, rfl, ?_, ?_, ?_, ?_, ?_⟩
              · rw [List.reverse_cons, List.append_assoc]
                rfl
              · rw [← getLast?_cons_of_ne_nil a (by simp)]
                exact hl
              · exact (List.chain'_cons.1 hc).2
              · exact (List.nodup_cons.1 hnd).2
              · intro x hx
                intro hmem
                rcases List.mem_cons.1 hmem with rfl | hx'
                · exact (List.nodup_cons.1 hnd).1 hx
                · exact (hav x (List.mem_cons_of_mem _ hx)) hx'
              · simp only [List.length_cons] at hlen ⊢
                omega

/-- The top-level DFS enumeration contains exactly the candidate paths. -/
theorem mem_all_simple_paths (net : NetworkData) (s t : String) (p : List String) :
    p ∈ all_simple_paths net s t 10 ↔ IsCandidatePath net s t p := by
  rw [all_simple_paths, dfsPaths_mem net t 10 [] s (List.not_mem_nil s) p, IsCandidatePath]
  constructor
  · rintro ⟨ext, rfl, h1, h2, h3, h4, _, h6⟩
    exact ⟨h1, h2, h3, h4, h6⟩
  · rintro ⟨h1, h2, h3, h4, h5⟩
    exact ⟨p, rfl, h1, h2, h3, h4, fun x _ => List.not_mem_nil x, h5⟩

theorem nodup_successors (net : NetworkData) (u : String) : (successors net u).Nodup :=
  nodup_pyKeys _

/-- The DFS lists each path at most once. -/
theorem dfsPaths_nodup (net : NetworkData) (t : String) :
    ∀ (fuel : Nat) (vis : List String) (u : String), u ∉ vis →
      (dfsPaths net t fuel vis u).Nodup := by
  intro fuel
  induction fuel with
  | zero =>
    intro vis u _
    rw [dfsPaths]
    by_cases hut : u = t
    · rw [if_pos hut]
      exact List.nodup_singleton _
    · rw [if_neg hut]
      exact List.nodup_nil
  | succ n ih =>
    intro vis u hu
    rw [dfsPaths]
    by_cases hut : u = t
    · rw [if_pos hut]
      exact List.nodup_singleton _
    · rw [if_neg hut]
      rw [List.nodup_flatMap]
      constructor
      · intro v _
        by_cases hvv : v ∈ u :: vis
        · rw [if_pos hvv]
          exact List.nodup_nil
        · rw [if_neg hvv]
          exact ih (u :: vis) v hvv
      · have hnd := nodup_successors net u
        refine hnd.imp ?_
        intro v1 v2 hne12
        show List.Disjoint (if v1 ∈ u :: vis then [] else dfsPaths net t n (u :: vis) v1)
          (if v2 ∈ u :: vis then [] else dfsPaths net t n (u :: vis) v2)
        intro p hp1 hp2
        by_cases h1 : v1 ∈ u :: vis
        · rw [if_pos h1] at hp1
          exact absurd hp1 (List.not_mem_nil _)
        · rw [if_neg h1] at hp1
          by_cases h2 : v2 ∈ u :: vis
          · rw [if_pos h2] at hp2
            exact absurd hp2 (List.not_mem_nil _)
          · rw [if_neg h2] at hp2
            obtain ⟨e1, hpe1, hh1, _, _, _, _, _⟩ :=
              (dfsPaths_mem net t n (u :: vis) v1 h1 p).1 hp1
            obtain ⟨e2, hpe2, hh2, _, _, _, _, _⟩ :=
              (dfsPaths_mem net t n (u :: vis) v2 h2 p).1 hp2
            rw [hpe1] at hpe2
            have he : e1 = e2 := List.append_cancel_left hpe2
            rw [he, hh2] at hh1
            exact hne12 (Option.some.inj hh1).symm

/-- C6.  Path enumerator contract: `find_all_simple_paths` returns the
DFS enumeration truncated to the first `max_paths` (50) entries in
traversal order; that enumeration lists, without repetition, exactly the
simple directed paths from `s` to `t` with at most `max_hops` (10) edges
(11 nodes); every returned path is such a path; and when no such path
exists the result is the empty list rather than a failure. -/
theorem path_enumerator_contract (net : NetworkData) (s t : String) :
    find_all_simple_paths net s t 50 = (all_simple_paths net s t 10).take 50 ∧
    (∀ p, p ∈ all_simple_paths net s t 10 ↔ IsCandidatePath net s t p) ∧
    (all_simple_paths net s t 10).Nodup ∧
    (∀ p ∈ find_all_simple_paths net s t 50, IsCandidatePath net s t p) ∧
    ((∀ p, ¬ IsCandidatePath net s t p) → find_all_simple_paths net s t 50 = []) := by
  have hmem := mem_all_simple_paths net s t
  have hnd : (all_simple_paths net s t 10).Nodup :=
    dfsPaths_nodup net t 10 [] s (List.not_mem_nil s)
  refine ⟨rfl, hmem, hnd, ?_, ?_⟩
  · intro p hp
    exact (hmem p).1 (List.take_subset _ _ hp)
  · intro hno
    have hempty : all_simple_paths net s t 10 = [] := by
      rcases h : all_simple_paths net s t 10 with _ | ⟨p, rest⟩
      · rfl
      · exact absurd ((hmem p).1 (h ▸ List.mem_cons_self _ _)) (hno p)
    rw [find_all_simple_paths, hempty]
    rfl

/-- Every triple stored in `all_paths` carries a simple (duplicate-free)
node path together with its derived edge list. -/
theorem all_paths_trip_simple {net : NetworkData}
    {trip : (String × String) × List String × List String} (h : trip ∈ all_paths net) :
    trip.2.1.Nodup ∧ trip.2.2 = path_to_edges net trip.2.1 := by
  obtain ⟨od, _, _, hp, he⟩ := mem_all_paths_iff.1 h
  have := (mem_all_simple_paths net od.origin od.destination trip.2.1).1
    (List.take_subset _ _ hp)
  exact ⟨this.2.2.2.1, he⟩

/-! ## Edge-flow reconstruction lemmas -/

theorem edge_map_some {net : NetworkData} {u v eid : String}
    (h : edge_map net u v = some eid) :
    ∃ e ∈ net.edges, e.id = eid ∧ e.source = u ∧ e.target = v := by
  rw [edge_map] at h
  obtain ⟨e, hfind, hid⟩ := Option.map_eq_some'.1 h
  have hmem : e ∈ net.edges.reverse := List.mem_of_find?_eq_some hfind
  have hpred := List.find?_some hfind
  simp only [Bool.and_eq_true, beq_iff_eq] at hpred
  exact ⟨e, List.mem_reverse.1 hmem, hid, hpred.1, hpred.2⟩

theorem nodup_zip_tail {p : List String} (hp : p.Nodup) : (p.zip p.tail).Nodup := by
  induction p with
  | nil => exact List.nodup_nil
  | cons a rest ih =>
    cases rest with
    | nil => exact List.nodup_nil
    | cons b rest' =>
      show ((a, b) :: ((b :: rest').zip rest')).Nodup
      rw [List.nodup_cons]
      constructor
      · intro hmem
        have := (List.of_mem_zip hmem).1
        exact (List.nodup_cons.1 hp).1 this
      · exact ih (List.nodup_cons.1 hp).2

theorem nodup_path_to_edges {net : NetworkData} {p : List String}
    (hids : (net.edges.map (fun e => e.id)).Nodup) (hp : p.Nodup) :
    (path_to_edges net p).Nodup := by
  rw [path_to_edges]
  refine List.Nodup.filterMap ?_ (nodup_zip_tail hp)
  intro q1 q2 eid h1 h2
  rw [Option.mem_def] at h1 h2
  obtain ⟨e1, he1, hid1, hs1, ht1⟩ := edge_map_some h1
  obtain ⟨e2, he2, hid2, hs2, ht2⟩ := edge_map_some h2
  have : e1 = e2 :=
    List.inj_on_of_nodup_map hids he1 he2 (by rw [hid1, hid2])
  have hq1 : q1 = (e1.source, e1.target) := by
    rw [hs1, ht1]
  have hq2 : q2 = (e2.source, e2.target) := by
    rw [hs2, ht2]
  rw [hq1, hq2, this]

/-- With distinct edge ids, the `+=` accumulation counts each traversing
path exactly once: the edge flow is the sum of the flows of the candidate
paths whose edge sequence contains the edge. -/
theorem edge_flow_val_eq_sum (net : NetworkData)
    (hids : (net.edges.map (fun e => e.id)).Nodup) (pf : List ℚ) (eid : String) :
    edge_flow_val net pf eid =
      ∑ i in (Finset.range (all_paths net).length).filter
        (fun i => eid ∈ ((all_paths net).getD i emptyTrip).2.2), pf.getD i 0 := by
  rw [edge_flow_val, Finset.sum_filter]
  apply Finset.sum_congr rfl
  intro i hi
  rw [Finset.mem_range] at hi
  have htrip : (all_paths net).getD i emptyTrip ∈ all_paths net := by
    rw [List.getD_eq_getElem?_getD, List.getElem?_eq_getElem hi, Option.getD_some]
    exact List.getElem_mem _
  obtain ⟨hnd, hedges⟩ := all_paths_trip_simple htrip
  have hnde : (((all_paths net).getD i emptyTrip).2.2).Nodup := by
    rw [hedges]
    exact nodup_path_to_edges hids hnd
  by_cases hmem : eid ∈ ((all_paths net).getD i emptyTrip).2.2
  · rw [if_pos hmem, List.count_eq_one_of_mem hnde hmem]
    rw [Nat.cast_one, one_mul]
  · rw [if_neg hmem, List.count_eq_zero.2 hmem]
    rw [Nat.cast_zero, zero_mul]

theorem lookupD_map_keys {ks : List String} (v : String → ℚ) {k : String} (hk : k ∈ ks) :
    lookupD (ks.map (fun x => (x, v x))) k = v k := by
  induction ks with
  | nil => exact absurd hk (List.not_mem_nil _)
  | cons a t ih =>
    rw [List.map_cons, lookupD]
    by_cases hak : a = k
    · subst hak
      simp [List.find?]
    · rw [List.find?]
      have : ((a, v a).1 == k) = false := by
        simp [hak]
      rw [this]
      have := ih (by rcases List.mem_cons.1 hk with rfl | h; exact absurd rfl hak; exact h)
      rw [lookupD] at this
      exact this

theorem lookupD_compute_edge_flows (net : NetworkData) (pf : List ℚ) {e : Edge}
    (he : e ∈ net.edges) :
    lookupD (compute_edge_flows net pf) e.id = edge_flow_val net pf e.id := by
  rw [compute_edge_flows]
  exact lookupD_map_keys _ ((mem_pyKeys _ _).2 (List.mem_map_of_mem _ he))

/-- C3 (amended: the network's edge ids are pairwise distinct).
Edge-flow reconstruction: each edge of the network is mapped by the
returned edge-flow dict to the sum of the flows of the candidate paths
whose edge sequence contains it (0 when no candidate path traverses it),
and — whenever the solvers take their main path (a non-empty candidate
list) — the returned dict is exactly `compute_edge_flows` applied to the
returned path-flow vector, i.e. derived fresh from it. -/
theorem edge_flow_reconstruction (pw : ℚ → ℚ → ℚ) (net : NetworkData)
    (αsW αsSO : Nat → ℚ) (max_iter : Nat) (tol : ℚ)
    (hids : (net.edges.map (fun e => e.id)).Nodup) :
    (∀ e ∈ net.edges,
      lookupD (solve_wardrop_equilibrium pw net αsW max_iter tol).2 e.id =
        ∑ i in (Finset.range (all_paths net).length).filter
          (fun i => e.id ∈ ((all_paths net).getD i emptyTrip).2.2),
          (solve_wardrop_equilibrium pw net αsW max_iter tol).1.getD i 0 ∧
      lookupD (solve_system_optimum pw net αsSO max_iter tol).2 e.id =
        ∑ i in (Finset.range (all_paths net).length).filter
          (fun i => e.id ∈ ((all_paths net).getD i emptyTrip).2.2),
          (solve_system_optimum pw net αsSO max_iter tol).1.getD i 0) ∧
    (all_paths net ≠ [] →
      (solve_wardrop_equilibrium pw net αsW max_iter tol).2 =
        compute_edge_flows net (solve_wardrop_equilibrium pw net αsW max_iter tol).1 ∧
      (solve_system_optimum pw net αsSO max_iter tol).2 =
        compute_edge_flows net (solve_system_optimum pw net αsSO max_iter tol).1) := by
  constructor
  · intro e he
    by_cases hap : all_paths net = []
    · rw [solve_wardrop_equilibrium, solve_system_optimum, if_pos hap, if_pos hap]
      constructor <;>
      · rw [lookupD]
        simp only [List.find?_nil]
        rw [Finset.sum_congr rfl (fun i _ => getD_eq_zero_of_le (Nat.zero_le i))]
        rw [Finset.sum_const_zero]
    · rw [solve_wardrop_equilibrium, solve_system_optimum, if_neg hap, if_neg hap]
      constructor <;>
      · rw [lookupD_compute_edge_flows net _ he, edge_flow_val_eq_sum net hids]
  · intro hap
    rw [solve_wardrop_equilibrium, solve_system_optimum, if_neg hap, if_neg hap]
    exact ⟨rfl, rfl⟩

/-- `pyPow` returns a value whenever the exponent is non-negative. -/
theorem pyPow_of_exp_nonneg (pw : ℚ → ℚ → ℚ) (x e : ℚ) (he : ¬ e < 0) :
    pyPow pw x e = some (pw x e) := by
  rw [pyPow, if_neg (fun h => he h.2)]

/-- `pyPow` returns a value whenever the base is non-zero. -/
theorem pyPow_of_base_ne (pw : ℚ → ℚ → ℚ) (x e : ℚ) (hx : x ≠ 0) :
    pyPow pw x e = some (pw x e) := by
  rw [pyPow, if_neg (fun h => hx h.1)]

theorem pyDiv_of_ne (x y : ℚ) (hy : y ≠ 0) : pyDiv x y = some (x / y) := by
  rw [pyDiv, if_neg hy]

theorem bprRatio_of_pos {cf : EdgeCostFunction} (h : 0 < cf.capacity) (flow : ℚ) :
    bprRatio cf flow = flow / cf.capacity := by
  rw [bprRatio, if_pos h]

theorem bprRatio_of_nonpos {cf : EdgeCostFunction} (h : ¬ 0 < cf.capacity) (flow : ℚ) :
    bprRatio cf flow = 0 := by
  rw [bprRatio, if_neg h]

/-- C4 (amended).  Each evaluator returns, without raising, exactly the
spec's closed form with its documented degenerate fallbacks precisely
when its own arithmetic is defined.  Polynomial: cost and marginal cost
unless `f = 0 ∧ k < 0` (Python's `0.0 ** negative` raises); the
derivative always (its `k = 0 ∨ f = 0` guard avoids every bad power);
the integral unless `k + 1 = 0` (zero division) or `f = 0 ∧ k + 1 < 0`.
Bpr (ratio `f/C` when `C > 0`, else `0`): cost when the evaluated power
does not have base 0 with `β < 0`, and — for the `C ≤ 0` fallback `T` —
when `0^β = 0` (`pw 0 β = 0`, true of Python exactly for `β > 0`; at
`β = 0` the code returns `T·(1+α)`); the derivative unless `C > 0` with
`f/C = 0 ∧ β - 1 < 0`; the integral unless `C > 0` with `f = 0 ∧
β + 1 < 0` or a zero denominator `(β+1)·C^β`. -/
theorem cost_evaluator_contract (pw : ℚ → ℚ → ℚ) (cf : EdgeCostFunction) (f : ℚ)
    (hf : 0 ≤ f) :
    (cf.function_type ≠ "bpr" →
      (¬(f = 0 ∧ cf.k < 0) → evaluate_cost pw cf f = some (spec_cost pw cf f)) ∧
      evaluate_cost_derivative pw cf f = some (spec_derivative pw cf f) ∧
      (¬(f = 0 ∧ cf.k < 0) → evaluate_marginal_cost pw cf f =
        some (spec_cost pw cf f + f * spec_derivative pw cf f)) ∧
      (cf.k + 1 ≠ 0 → ¬(f = 0 ∧ cf.k + 1 < 0) →
        evaluate_integral pw cf f = some (spec_integral pw cf f))) ∧
    (cf.function_type = "bpr" →
      (¬(bprRatio cf f = 0 ∧ cf.beta < 0) → (cf.capacity ≤ 0 → pw 0 cf.beta = 0) →
        evaluate_cost pw cf f = some (spec_cost pw cf f)) ∧
      ((0 < cf.capacity → ¬(f / cf.capacity = 0 ∧ cf.beta - 1 < 0)) →
        evaluate_cost_derivative pw cf f = some (spec_derivative pw cf f)) ∧
      (¬(bprRatio cf f = 0 ∧ cf.beta < 0) → (cf.capacity ≤ 0 → pw 0 cf.beta = 0) →
        (0 < cf.capacity → ¬(f / cf.capacity = 0 ∧ cf.beta - 1 < 0)) →
        evaluate_marginal_cost pw cf f =
          some (spec_cost pw cf f + f * spec_derivative pw cf f)) ∧
      ((0 < cf.capacity →
          ¬(f = 0 ∧ cf.beta + 1 < 0) ∧ (cf.beta + 1) * pw cf.capacity cf.beta ≠ 0) →
        evaluate_integral pw cf f = some (spec_integral pw cf f))) := by
  have hmarg : evaluate_cost pw cf f = some (spec_cost pw cf f) →
      evaluate_cost_derivative pw cf f = some (spec_derivative pw cf f) →
      evaluate_marginal_cost pw cf f =
        some (spec_cost pw cf f + f * spec_derivative pw cf f) := by
    intro h1 h2
    rw [evaluate_marginal_cost, h1, h2]
    rfl
  constructor
  · intro hbpr
    have hcost : ¬(f = 0 ∧ cf.k < 0) →
        evaluate_cost pw cf f = some (spec_cost pw cf f) := by
      intro h
      rw [evaluate_cost, spec_cost, if_neg hbpr, if_neg hbpr, pyPow, if_neg h,
        Option.map_some']
    have hderiv : evaluate_cost_derivative pw cf f = some (spec_derivative pw cf f) := by
      rw [evaluate_cost_derivative, spec_derivative, if_neg hbpr, if_neg hbpr]
      by_cases hg : cf.k = 0 ∨ f = 0
      · rw [if_pos hg, if_pos hg]
      · rw [if_neg hg, if_neg hg]
        have hfne : f ≠ 0 := fun h => hg (Or.inr h)
        rw [pyPow_of_base_ne pw f _ hfne, Option.map_some']
    refine ⟨hcost, hderiv, fun h => hmarg (hcost h) hderiv, ?_⟩
    intro h1 h2
    rw [evaluate_integral, spec_integral, if_neg hbpr, if_neg hbpr]
    rw [show (do
        let r ← pyPow pw f (cf.k + 1)
        let q ← pyDiv (cf.a * r) (cf.k + 1)
        pure (q + cf.b * f) : Option ℚ) =
      (pyPow pw f (cf.k + 1)).bind (fun r =>
        (pyDiv (cf.a * r) (cf.k + 1)).bind (fun q => some (q + cf.b * f))) from rfl]
    rw [pyPow, if_neg h2, Option.some_bind, pyDiv_of_ne _ _ h1, Option.some_bind]
  · intro hbpr
    have hcost : ¬(bprRatio cf f = 0 ∧ cf.beta < 0) → (cf.capacity ≤ 0 → pw 0 cf.beta = 0) →
        evaluate_cost pw cf f = some (spec_cost pw cf f) := by
      intro hnr hp0
      by_cases hC : cf.capacity ≤ 0
      · have hnotC : ¬ (0 : ℚ) < cf.capacity := not_lt.2 hC
        rw [evaluate_cost, spec_cost, if_pos hbpr, if_pos hbpr, if_pos hC,
          bprRatio_of_nonpos hnotC, pyPow,
          if_neg (fun h => hnr ⟨bprRatio_of_nonpos hnotC f, h.2⟩), Option.map_some',
          hp0 hC, mul_zero, add_zero, mul_one]
      · have hCpos : (0 : ℚ) < cf.capacity := lt_of_not_le hC
        rw [evaluate_cost, spec_cost, if_pos hbpr, if_pos hbpr, if_neg hC,
          bprRatio_of_pos hCpos, pyPow,
          if_neg (fun h => hnr ⟨by rw [bprRatio_of_pos hCpos]; exact h.1, h.2⟩),
          Option.map_some']
    have hderiv : (0 < cf.capacity → ¬(f / cf.capacity = 0 ∧ cf.beta - 1 < 0)) →
        evaluate_cost_derivative pw cf f = some (spec_derivative pw cf f) := by
      intro hnd
      by_cases hC : cf.capacity ≤ 0
      · rw [evaluate_cost_derivative, spec_derivative, if_pos hbpr, if_pos hbpr,
          if_pos hC, if_pos hC]
      · have hCpos : (0 : ℚ) < cf.capacity := lt_of_not_le hC
        rw [evaluate_cost_derivative, spec_derivative, if_pos hbpr, if_pos hbpr,
          if_neg hC, if_neg hC, pyPow, if_neg (hnd hCpos), Option.map_some']
    refine ⟨hcost, hderiv, fun h1 h2 h3 => hmarg (hcost h1 h2) (hderiv h3), ?_⟩
    intro hi
    by_cases hC : cf.capacity ≤ 0
    · rw [evaluate_integral, spec_integral, if_pos hbpr, if_pos hbpr, if_pos hC, if_pos hC]
    · have hCpos : (0 : ℚ) < cf.capacity := lt_of_not_le hC
      obtain ⟨hno, hden⟩ := hi hCpos
      rw [evaluate_integral, spec_integral, if_pos hbpr, if_pos hbpr, if_neg hC, if_neg hC]
      rw [show (do
          let r ← pyPow pw f (cf.beta + 1)
          let cb ← pyPow pw cf.capacity cf.beta
          let q ← pyDiv (cf.free_flow_time * cf.alpha * r) ((cf.beta + 1) * cb)
          pure (cf.free_flow_time * f + q) : Option ℚ) =
        (pyPow pw f (cf.beta + 1)).bind (fun r =>
          (pyPow pw cf.capacity cf.beta).bind (fun cb =>
            (pyDiv (cf.free_flow_time * cf.alpha * r) ((cf.beta + 1) * cb)).bind (fun q =>
              some (cf.free_flow_time * f + q)))) from rfl]
      rw [pyPow, if_neg hno, Option.some_bind,
        pyPow_of_base_ne pw cf.capacity cf.beta (ne_of_gt hCpos), Option.some_bind,
        pyDiv_of_ne _ _ hden, Option.some_bind]

/-! ## Rounding lemmas -/

theorem roundHalfEven_intCast (n : ℤ) : roundHalfEven (n : ℚ) = n := by
  rw [roundHalfEven, Int.floor_intCast, sub_self]
  rw [if_neg (by norm_num)]
  exact round_intCast n

theorem round4_eval (x : ℚ) (n : ℤ) (h : x * 10000 = (n : ℚ)) : round4 x = (n : ℚ) / 10000 := by
  rw [round4, h, roundHalfEven_intCast]

theorem round4_one : round4 1 = 1 := by
  rw [round4_eval 1 10000 (by norm_num)]
  norm_num

/-- The price of anarchy field is the rounded guarded ratio of the two
formatted total system costs. -/
theorem compute_equilibrium_poa (pw : ℚ → ℚ → ℚ) (net : NetworkData)
    (αsW αsSO : Nat → ℚ) (max_iter : Nat) (tol : ℚ) :
    (compute_equilibrium pw net αsW αsSO max_iter tol).price_of_anarchy =
      round4 (if 0 < (compute_equilibrium pw net αsW αsSO max_iter tol).system_optimum.total_system_cost
        then (compute_equilibrium pw net αsW αsSO max_iter tol).wardrop_equilibrium.total_system_cost /
          (compute_equilibrium pw net αsW αsSO max_iter tol).system_optimum.total_system_cost
        else 1) := rfl

/-- C8 (amended: the code's guard is `> 0`, so the price of anarchy is
the rounded ratio of equilibrium to optimum total cost whenever the
optimum total cost is positive, and is exactly `1.0` whenever it is `≤ 0`
— in particular when it is `0`, so the division never runs on a zero
denominator and nothing is raised). -/
theorem price_of_anarchy_guarded (pw : ℚ → ℚ → ℚ) (net : NetworkData)
    (αsW αsSO : Nat → ℚ) (max_iter : Nat) (tol : ℚ) :
    ((compute_equilibrium pw net αsW αsSO max_iter tol).system_optimum.total_system_cost ≤ 0 →
      (compute_equilibrium pw net αsW αsSO max_iter tol).price_of_anarchy = 1) ∧
    (0 < (compute_equilibrium pw net αsW αsSO max_iter tol).system_optimum.total_system_cost →
      (compute_equilibrium pw net αsW αsSO max_iter tol).price_of_anarchy =
        round4 ((compute_equilibrium pw net αsW αsSO max_iter tol).wardrop_equilibrium.total_system_cost /
          (compute_equilibrium pw net αsW αsSO max_iter tol).system_optimum.total_system_cost)) := by
  constructor
  · intro h
    rw [compute_equilibrium_poa, if_neg (not_lt.2 h), round4_one]
  · intro h
    rw [compute_equilibrium_poa, if_pos h]

/-- C9.  Frame property: in the state-passing semantics of the two solve
methods (which assign no attribute of `self`), each solve returns the
engine — the network, graph adjacency, edge map, edge data, per-OD path
lists and flattened candidate-path list — unchanged, and therefore the
two solves read identical shared data and produce the same results in
either execution order. -/
theorem solver_frame_property (pw : ℚ → ℚ → ℚ) (e : Engine) (αsW αsSO : Nat → ℚ)
    (max_iter : Nat) (tol : ℚ) :
    (solve_wardrop_equilibrium_st pw e αsW max_iter tol).1 = e ∧
    (solve_system_optimum_st pw e αsSO max_iter tol).1 = e ∧
    ((solve_wardrop_equilibrium_st pw e αsW max_iter tol).1.network = e.network ∧
      (solve_wardrop_equilibrium_st pw e αsW max_iter tol).1.graph_succ = e.graph_succ ∧
      (solve_wardrop_equilibrium_st pw e αsW max_iter tol).1.edge_map_entries = e.edge_map_entries ∧
      (solve_wardrop_equilibrium_st pw e αsW max_iter tol).1.edge_data_entries = e.edge_data_entries ∧
      (solve_wardrop_equilibrium_st pw e αsW max_iter tol).1.paths_by_od_entries = e.paths_by_od_entries ∧
      (solve_wardrop_equilibrium_st pw e αsW max_iter tol).1.all_paths_entries = e.all_paths_entries) ∧
    (solve_system_optimum_st pw (solve_wardrop_equilibrium_st pw e αsW max_iter tol).1
        αsSO max_iter tol).2 =
      (solve_system_optimum_st pw e αsSO max_iter tol).2 ∧
    (solve_wardrop_equilibrium_st pw (solve_system_optimum_st pw e αsSO max_iter tol).1
        αsW max_iter tol).2 =
      (solve_wardrop_equilibrium_st pw e αsW max_iter tol).2 :=
  ⟨rfl, rfl, ⟨rfl, rfl, rfl, rfl, rfl, rfl⟩, rfl, rfl⟩

/-- C10.  When no OD pair has a candidate path (`all_paths` is empty),
both solvers return the empty flow vector and the empty edge-flow dict —
not a dict mapping each network edge to `0` (the two differ whenever the
network has edges) — and formatting that result yields no per-edge
entries and no path flows at all. -/
theorem empty_candidate_paths (pw : ℚ → ℚ → ℚ) (net : NetworkData)
    (αsW αsSO : Nat → ℚ) (max_iter : Nat) (tol : ℚ) (hap : all_paths net = []) :
    solve_wardrop_equilibrium pw net αsW max_iter tol = ([], []) ∧
    solve_system_optimum pw net αsSO max_iter tol = ([], []) ∧
    (net.edges ≠ [] → ([] : List (String × ℚ)) ≠ zero_edge_flows net) ∧
    (format_results pw net [] [] none).edge_results = [] ∧
    (format_results pw net [] [] none).path_flows = [] := by
  refine ⟨by rw [solve_wardrop_equilibrium, if_pos hap],
    by rw [solve_system_optimum, if_pos hap], ?_, rfl, ?_⟩
  · intro hne heq
    rcases hed : net.edges with _ | ⟨e, rest⟩
    · exact hne hed
    · have hmem : e.id ∈ pyKeys (net.edges.map (fun e => e.id)) :=
        (mem_pyKeys _ _).2 (List.mem_map_of_mem _ (hed ▸ List.mem_cons_self _ _))
      have : pyKeys (net.edges.map (fun e => e.id)) ≠ [] := List.ne_nil_of_mem hmem
      rw [zero_edge_flows] at heq
      exact this (List.map_eq_nil_iff.1 heq.symm)
  · show ((all_paths net).zip ([] : List ℚ)).filterMap _ = []
    rw [hap]
    rfl

/-! ## Per-OD cost formatting lemmas -/

theorem find?_map_replace (m : List (String × ℚ)) (k : String) (v : ℚ)
    (hany : m.any (fun p => p.1 == k) = true) :
    (m.map (fun p => if p.1 == k then (k, v) else p)).find? (fun p => p.1 == k) =
      some (k, v) := by
  induction m with
  | nil => simp at hany
  | cons p t ih =>
    rw [List.map_cons]
    by_cases hpk : (p.1 == k) = true
    · rw [if_pos hpk]
      exact List.find?_cons_of_pos _ (by simp)
    · rw [if_neg hpk]
      rw [@List.find?_cons_of_neg _ (fun q => q.1 == k) p _ hpk]
      apply ih
      rw [List.any_cons, Bool.eq_false_iff.2 hpk, Bool.false_or] at hany
      exact hany

theorem find?_map_replace_ne (m : List (String × ℚ)) (k k' : String) (v : ℚ)
    (hkk : k ≠ k') :
    (m.map (fun p => if p.1 == k then (k, v) else p)).find? (fun p => p.1 == k') =
      m.find? (fun p => p.1 == k') := by
  induction m with
  | nil => rfl
  | cons p t ih =>
    rw [List.map_cons]
    by_cases hpk : (p.1 == k) = true
    · rw [if_pos hpk]
      have h1 : (((k, v) : String × ℚ).1 == k') = false := by
        simp [hkk]
      have h2 : (p.1 == k') = false := by
        have : p.1 = k := by simpa using hpk
        simp [this, hkk]
      rw [@List.find?_cons_of_neg _ (fun q => q.1 == k') (k, v) _ (by simp [hkk]),
        @List.find?_cons_of_neg _ (fun q => q.1 == k') p _ (by simp [h2]), ih]
    · rw [if_neg hpk]
      by_cases hpk' : (p.1 == k') = true
      · rw [@List.find?_cons_of_pos _ (fun q => q.1 == k') p _ hpk',
          @List.find?_cons_of_pos _ (fun q => q.1 == k') p _ hpk']
      · rw [@List.find?_cons_of_neg _ (fun q => q.1 == k') p _ hpk',
          @List.find?_cons_of_neg _ (fun q => q.1 == k') p _ hpk', ih]

theorem lookupD_dictSet_self (m : List (String × ℚ)) (k : String) (v : ℚ) :
    lookupD (dictSet m k v) k = v := by
  rw [dictSet]
  split
  · rename_i hany
    rw [lookupD, find?_map_replace m k v hany]
  · rename_i hany
    have hnone : m.find? (fun p => p.1 == k) = none := by
      rw [List.find?_eq_none]
      intro x hx hp
      exact hany (List.any_eq_true.2 ⟨x, hx, hp⟩)
    rw [lookupD, List.find?_append, hnone, Option.none_or]
    simp [List.find?]

theorem lookupD_dictSet_ne (m : List (String × ℚ)) {k k' : String} (v : ℚ) (hkk : k ≠ k') :
    lookupD (dictSet m k v) k' = lookupD m k' := by
  rw [dictSet]
  split
  · rw [lookupD, find?_map_replace_ne m k k' v hkk, lookupD]
  · rw [lookupD, List.find?_append]
    have h1 : ([( k, v)] : List (String × ℚ)).find? (fun p => p.1 == k') = none := by
      rw [List.find?_eq_none]
      intro x hx hp
      rw [List.mem_singleton] at hx
      subst hx
      exact hkk (by simpa using hp)
    rw [h1]
    rw [Option.or_none]
    rfl

theorem not_mem_keys_dictSet {m : List (String × ℚ)} {k k' : String} (v : ℚ)
    (hm : k' ∉ m.map Prod.fst) (hkk : k' ≠ k) :
    k' ∉ (dictSet m k v).map Prod.fst := by
  rw [dictSet]
  split
  · intro hmem
    obtain ⟨p, hp, hfst⟩ := List.mem_map.1 hmem
    obtain ⟨q, hq, hfq⟩ := List.mem_map.1 hp
    by_cases hqk : (q.1 == k) = true
    · rw [if_pos hqk] at hfq
      apply hkk
      rw [← hfst, ← hfq]
    · rw [if_neg hqk] at hfq
      apply hm
      rw [← hfq] at hfst
      rw [← hfst]
      exact List.mem_map_of_mem _ hq
  · intro hmem
    rw [List.map_append] at hmem
    rcases List.mem_append.1 hmem with h | h
    · exact hm h
    · rw [List.map_cons] at h
      rcases List.mem_cons.1 h with h' | h'
      · exact hkk h'
      · exact absurd h' (List.not_mem_nil _)

theorem format_results_od_costs (pw : ℚ → ℚ → ℚ) (net : NetworkData) (pf : List ℚ)
    (ef : List (String × ℚ)) (tolls : Option (List (String × ℚ))) :
    (format_results pw net pf ef tolls).od_costs =
      net.od_pairs.foldl (odCostStep pw net pf ef) [] := rfl

theorem foldl_odCostStep_frame (pw : ℚ → ℚ → ℚ) (net : NetworkData) (pf : List ℚ)
    (ef : List (String × ℚ)) {key : String} (L : List ODPair)
    (hno : ∀ od ∈ L, fmtKey od = key → od_path_indices net od.origin od.destination = []) :
    ∀ m, lookupD (L.foldl (odCostStep pw net pf ef) m) key = lookupD m key := by
  induction L with
  | nil => intro m; rfl
  | cons od t ih =>
    intro m
    rw [List.foldl_cons,
      ih (fun x hx => hno x (List.mem_cons_of_mem _ hx))]
    rw [odCostStep]
    split
    · rfl
    · rename_i hidx
      have hkey : fmtKey od ≠ key := fun he => hidx (hno od (List.mem_cons_self _ _) he)
      rw [lookupD_dictSet_ne _ _ hkey]

theorem foldl_odCostStep_lookup (pw : ℚ → ℚ → ℚ) (net : NetworkData) (pf : List ℚ)
    (ef : List (String × ℚ)) {key : String} {v : ℚ} (L : List ODPair)
    (hall : ∀ od ∈ L, fmtKey od = key →
      od_path_indices net od.origin od.destination ≠ [] ∧
      round4 (od_avg_cost net pf (compute_path_costs pw net ef false)
        od.origin od.destination) = v)
    (hex : ∃ od ∈ L, fmtKey od = key ∧ od_path_indices net od.origin od.destination ≠ []) :
    ∀ m, lookupD (L.foldl (odCostStep pw net pf ef) m) key = v := by
  induction L with
  | nil =>
    obtain ⟨od, hmem, _⟩ := hex
    exact absurd hmem (List.not_mem_nil _)
  | cons od t ih =>
    intro m
    rw [List.foldl_cons]
    by_cases hkey : fmtKey od = key
    · obtain ⟨hidx, hval⟩ := hall od (List.mem_cons_self _ _) hkey
      have hstep : odCostStep pw net pf ef m od = dictSet m key v := by
        rw [odCostStep, if_neg hidx, hkey, hval]
      rw [hstep]
      by_cases hex2 : ∃ od' ∈ t, fmtKey od' = key ∧
          od_path_indices net od'.origin od'.destination ≠ []
      · exact ih (fun x hx he => hall x (List.mem_cons_of_mem _ hx) he) hex2 _
      · push_neg at hex2
        rw [foldl_odCostStep_frame pw net pf ef t
          (fun x hx he => hex2 x hx he) _]
        exact lookupD_dictSet_self m key v
    · rcases hex with ⟨od', hmem', hkey', hidx'⟩
      have hmt : od' ∈ t := by
        rcases List.mem_cons.1 hmem' with rfl | h
        · exact absurd hkey' hkey
        · exact h
      exact ih (fun x hx he => hall x (List.mem_cons_of_mem _ hx) he)
        ⟨od', hmt, hkey', hidx'⟩ _

theorem foldl_odCostStep_not_mem (pw : ℚ → ℚ → ℚ) (net : NetworkData) (pf : List ℚ)
    (ef : List (String × ℚ)) {key : String} (L : List ODPair)
    (hno : ∀ od ∈ L, fmtKey od = key → od_path_indices net od.origin od.destination = []) :
    ∀ m, key ∉ m.map Prod.fst → key ∉ (L.foldl (odCostStep pw net pf ef) m).map Prod.fst := by
  induction L with
  | nil => intro m hm; exact hm
  | cons od t ih =>
    intro m hm
    rw [List.foldl_cons]
    refine ih (fun x hx => hno x (List.mem_cons_of_mem _ hx)) _ ?_
    rw [odCostStep]
    split
    · exact hm
    · rename_i hidx
      have hkey : fmtKey od ≠ key := fun he => hidx (hno od (List.mem_cons_self _ _) he)
      exact not_mem_keys_dictSet _ hm (fun he => hkey he.symm)

/-! ## Removing an OD pair without candidate paths -/

/-- The network with every OD pair keyed `(o, d)` removed. -/
def dropOD (net : NetworkData) (o d : String) : NetworkData :=
  NetworkData.mk net.nodes net.edges
    (net.od_pairs.filter (fun od => ¬ (od.origin = o ∧ od.destination = d)))

theorem successors_congr {net net' : NetworkData} (h : net.edges = net'.edges) (u : String) :
    successors net u = successors net' u := by
  rw [successors, successors, h]

theorem dfsPaths_congr {net net' : NetworkData} (h : net.edges = net'.edges) (t : String) :
    ∀ (fuel : Nat) (vis : List String) (u : String),
      dfsPaths net t fuel vis u = dfsPaths net' t fuel vis u := by
  intro fuel
  induction fuel with
  | zero => intro vis u; rw [dfsPaths, dfsPaths]
  | succ n ih =>
    intro vis u
    rw [dfsPaths, dfsPaths]
    by_cases hut : u = t
    · rw [if_pos hut, if_pos hut]
    · rw [if_neg hut, if_neg hut, successors_congr h u]
      rw [show (fun v => if v ∈ u :: vis then [] else dfsPaths net t n (u :: vis) v) =
        (fun v => if v ∈ u :: vis then [] else dfsPaths net' t n (u :: vis) v) from
        funext fun v => by
          split
          · rfl
          · exact ih (u :: vis) v]

theorem find_all_simple_paths_congr {net net' : NetworkData} (h : net.edges = net'.edges)
    (s t : String) (mp : Nat) :
    find_all_simple_paths net s t mp = find_all_simple_paths net' s t mp := by
  rw [find_all_simple_paths, find_all_simple_paths, all_simple_paths, all_simple_paths,
    dfsPaths_congr h]

theorem flatMap_filter_eq {α β : Type} (l : List α) (P : α → Bool) (f : α → List β)
    (h : ∀ a ∈ l, P a = false → f a = []) :
    (l.filter P).flatMap f = l.flatMap f := by
  induction l with
  | nil => rfl
  | cons a t ih =>
    rw [List.filter_cons]
    by_cases hp : P a = true
    · rw [if_pos hp, List.flatMap_cons, List.flatMap_cons,
        ih (fun x hx => h x (List.mem_cons_of_mem _ hx))]
    · rw [if_neg hp, List.flatMap_cons,
        h a (List.mem_cons_self _ _) (Bool.eq_false_iff.2 hp),
        List.nil_append, ih (fun x hx => h x (List.mem_cons_of_mem _ hx))]

theorem foldl_filter_eq {α β : Type} (l : List α) (P : α → Bool) (f : β → α → β)
    (h : ∀ (b : β), ∀ a ∈ l, P a = false → f b a = b) :
    ∀ b, (l.filter P).foldl f b = l.foldl f b := by
  induction l with
  | nil => intro b; rfl
  | cons a t ih =>
    intro b
    rw [List.filter_cons]
    by_cases hp : P a = true
    · rw [if_pos hp, List.foldl_cons, List.foldl_cons,
        ih (fun b' x hx => h b' x (List.mem_cons_of_mem _ hx))]
    · rw [if_neg hp, List.foldl_cons,
        h b a (List.mem_cons_self _ _) (Bool.eq_false_iff.2 hp),
        ih (fun b' x hx => h b' x (List.mem_cons_of_mem _ hx))]

theorem dropOD_filter_false {net : NetworkData} {o d : String} {od : ODPair}
    (hmem : od ∈ net.od_pairs)
    (hP : (decide (¬ (od.origin = o ∧ od.destination = d))) = false) :
    od.origin = o ∧ od.destination = d := by
  have h := of_decide_eq_false hP
  push_neg at h
  exact h

theorem all_paths_dropOD (net : NetworkData) {o d : String}
    (hfind : find_all_simple_paths net o d 50 = []) :
    all_paths (dropOD net o d) = all_paths net := by
  rw [all_paths, all_paths]
  have hfun : ∀ od : ODPair,
      (let paths := find_all_simple_paths (dropOD net o d) od.origin od.destination 50
       if paths = [] then []
       else paths.map (fun p => ((od.origin, od.destination), p, path_to_edges (dropOD net o d) p))) =
      (let paths := find_all_simple_paths net od.origin od.destination 50
       if paths = [] then []
       else paths.map (fun p => ((od.origin, od.destination), p, path_to_edges net p))) := by
    intro od
    rw [find_all_simple_paths_congr (rfl : (dropOD net o d).edges = net.edges)]
    rfl
  show (dropOD net o d).od_pairs.flatMap _ = _
  rw [show ((dropOD net o d).od_pairs = net.od_pairs.filter
    (fun od => ¬ (od.origin = o ∧ od.destination = d))) from rfl]
  rw [show (fun od : ODPair =>
      let paths := find_all_simple_paths (dropOD net o d) od.origin od.destination 50
      if paths = [] then []
      else paths.map (fun p => ((od.origin, od.destination), p, path_to_edges (dropOD net o d) p))) =
    (fun od : ODPair =>
      let paths := find_all_simple_paths net od.origin od.destination 50
      if paths = [] then []
      else paths.map (fun p => ((od.origin, od.destination), p, path_to_edges net p))) from
    funext hfun]
  apply flatMap_filter_eq
  intro od hod hP
  obtain ⟨h1, h2⟩ := dropOD_filter_false hod hP
  show (if find_all_simple_paths net od.origin od.destination 50 = [] then _ else _) = ([] : List ((String × String) × List String × List String))
  rw [h1, h2, if_pos hfind]

theorem paths_by_od_dropOD (net : NetworkData) {o d : String}
    (hfind : find_all_simple_paths net o d 50 = []) (o' d' : String) :
    paths_by_od (dropOD net o d) o' d' = paths_by_od net o' d' := by
  rw [paths_by_od, paths_by_od]
  rw [show ∀ s t mp, find_all_simple_paths (dropOD net o d) s t mp =
      find_all_simple_paths net s t mp from
    fun s t mp => find_all_simple_paths_congr rfl s t mp]
  by_cases hkey : o' = o ∧ d' = d
  · obtain ⟨rfl, rfl⟩ := hkey
    rw [if_neg (fun h => h.2 hfind), if_neg (fun h => h.2 hfind)]
  · have hany : ((dropOD net o d).od_pairs.any
        (fun od => od.origin == o' && od.destination == d')) =
        (net.od_pairs.any (fun od => od.origin == o' && od.destination == d')) := by
      show (net.od_pairs.filter _).any _ = _
      rw [List.any_filter]
      rw [Bool.eq_iff_iff, List.any_eq_true, List.any_eq_true]
      constructor
      · rintro ⟨od, hod, hp⟩
        rw [Bool.and_eq_true] at hp
        exact ⟨od, hod, hp.2⟩
      · rintro ⟨od, hod, hp⟩
        refine ⟨od, hod, ?_⟩
        rw [Bool.and_eq_true]
        refine ⟨?_, hp⟩
        simp only [Bool.and_eq_true, beq_iff_eq] at hp
        refine decide_eq_true ?_
        intro hc
        exact hkey ⟨hp.1 ▸ hc.1.symm ▸ rfl, hp.2 ▸ hc.2.symm ▸ rfl⟩
    rw [hany]

theorem od_path_indices_dropOD (net : NetworkData) {o d : String}
    (hfind : find_all_simple_paths net o d 50 = []) (o' d' : String) :
    od_path_indices (dropOD net o d) o' d' = od_path_indices net o' d' := by
  rw [od_path_indices, od_path_indices, all_paths_dropOD net hfind]

theorem edge_flow_val_dropOD (net : NetworkData) {o d : String}
    (hfind : find_all_simple_paths net o d 50 = []) (pf : List ℚ) (eid : String) :
    edge_flow_val (dropOD net o d) pf eid = edge_flow_val net pf eid := by
  rw [edge_flow_val, edge_flow_val, all_paths_dropOD net hfind]

theorem compute_edge_flows_dropOD (net : NetworkData) {o d : String}
    (hfind : find_all_simple_paths net o d 50 = []) (pf : List ℚ) :
    compute_edge_flows (dropOD net o d) pf = compute_edge_flows net pf := by
  rw [compute_edge_flows, compute_edge_flows]
  show (pyKeys (net.edges.map (fun e => e.id))).map _ =
    (pyKeys (net.edges.map (fun e => e.id))).map _
  apply List.map_congr_left
  intro eid _
  rw [edge_flow_val_dropOD net hfind]

theorem compute_path_costs_dropOD (pw : ℚ → ℚ → ℚ) (net : NetworkData) {o d : String}
    (hfind : find_all_simple_paths net o d 50 = []) (ef : List (String × ℚ)) (um : Bool) :
    compute_path_costs pw (dropOD net o d) ef um = compute_path_costs pw net ef um := by
  rw [compute_path_costs, compute_path_costs, all_paths_dropOD net hfind]
  rfl

theorem aonStep_dropOD (net : NetworkData) {o d : String}
    (hfind : find_all_simple_paths net o d 50 = []) (costs flows : List ℚ) (od : ODPair) :
    aonStep (dropOD net o d) costs flows od = aonStep net costs flows od := by
  rw [aonStep, aonStep, paths_by_od_dropOD net hfind, od_path_indices_dropOD net hfind]

theorem all_or_nothing_dropOD (net : NetworkData) {o d : String}
    (hfind : find_all_simple_paths net o d 50 = []) (costs : List ℚ) :
    all_or_nothing (dropOD net o d) costs = all_or_nothing net costs := by
  rw [all_or_nothing, all_or_nothing, all_paths_dropOD net hfind]
  rw [show aonStep (dropOD net o d) costs = aonStep net costs from
    funext fun flows => funext fun od => aonStep_dropOD net hfind costs flows od]
  show (net.od_pairs.filter _).foldl _ _ = _
  apply foldl_filter_eq
  intro flows od hod hP
  obtain ⟨h1, h2⟩ := dropOD_filter_false hod hP
  rw [aonStep, h1, h2]
  have hnone : paths_by_od net o d = none := by
    rw [paths_by_od, if_neg (fun h => h.2 hfind)]
  rw [hnone]
  rfl

theorem fw_update_dropOD (pw : ℚ → ℚ → ℚ) (net : NetworkData) {o d : String}
    (hfind : find_all_simple_paths net o d 50 = []) (um : Bool) (flows : List ℚ) (α : ℚ) :
    fw_update pw (dropOD net o d) um flows α = fw_update pw net um flows α := by
  rw [fw_update, fw_update, compute_edge_flows_dropOD net hfind,
    compute_path_costs_dropOD pw net hfind, all_or_nothing_dropOD net hfind]

theorem fwLoop_dropOD (pw : ℚ → ℚ → ℚ) (net : NetworkData) {o d : String}
    (hfind : find_all_simple_paths net o d 50 = []) (um : Bool) (αs : Nat → ℚ) (tol : ℚ) :
    ∀ (fuel i : Nat) (flows : List ℚ),
      fwLoop pw (dropOD net o d) um αs tol i fuel flows = fwLoop pw net um αs tol i fuel flows := by
  intro fuel
  induction fuel with
  | zero => intro i flows; rfl
  | succ n ih =>
    intro i flows
    rw [fwLoop, fwLoop, fw_update_dropOD pw net hfind, ih]

theorem solve_dropOD (pw : ℚ → ℚ → ℚ) (net : NetworkData) {o d : String}
    (hfind : find_all_simple_paths net o d 50 = []) (αs : Nat → ℚ)
    (max_iter : Nat) (tol : ℚ) :
    solve_wardrop_equilibrium pw (dropOD net o d) αs max_iter tol =
      solve_wardrop_equilibrium pw net αs max_iter tol ∧
    solve_system_optimum pw (dropOD net o d) αs max_iter tol =
      solve_system_optimum pw net αs max_iter tol := by
  have hz : zero_edge_flows (dropOD net o d) = zero_edge_flows net := rfl
  constructor
  · rw [solve_wardrop_equilibrium, solve_wardrop_equilibrium, all_paths_dropOD net hfind]
    split
    · rfl
    · simp only [hz, compute_path_costs_dropOD pw net hfind, all_or_nothing_dropOD net hfind,
        fwLoop_dropOD pw net hfind, compute_edge_flows_dropOD net hfind]
  · rw [solve_system_optimum, solve_system_optimum, all_paths_dropOD net hfind]
    split
    · rfl
    · simp only [hz, compute_path_costs_dropOD pw net hfind, all_or_nothing_dropOD net hfind,
        fwLoop_dropOD pw net hfind, compute_edge_flows_dropOD net hfind]

theorem od_path_indices_eq_nil_iff {net : NetworkData} {od : ODPair}
    (hod : od ∈ net.od_pairs) :
    od_path_indices net od.origin od.destination = [] ↔
      find_all_simple_paths net od.origin od.destination 50 = [] := by
  constructor
  · intro h
    by_contra hne
    exact od_path_indices_ne_nil hod hne h
  · intro h
    by_contra hne
    exact find_paths_ne_nil_of_indices hne h

theorem mem_keys_dictSet_self (m : List (String × ℚ)) (k : String) (v : ℚ) :
    k ∈ (dictSet m k v).map Prod.fst := by
  rw [dictSet]
  split
  · rename_i hany
    obtain ⟨p, hp, hpk⟩ := List.any_eq_true.1 hany
    have hpk' : p.1 = k := by simpa using hpk
    refine List.mem_map.2 ⟨(k, v), ?_, rfl⟩
    refine List.mem_map.2 ⟨p, hp, ?_⟩
    rw [if_pos (by simpa using hpk')]
  · rw [List.map_append]
    exact List.mem_append.2 (Or.inr (by simp))

theorem mem_keys_dictSet_of_mem {m : List (String × ℚ)} {k' : String} (k : String) (v : ℚ)
    (h : k' ∈ m.map Prod.fst) : k' ∈ (dictSet m k v).map Prod.fst := by
  rw [dictSet]
  split
  · obtain ⟨p, hp, hfst⟩ := List.mem_map.1 h
    by_cases hpk : (p.1 == k) = true
    · have : k' = k := by
        rw [← hfst]
        simpa using hpk
      subst this
      refine List.mem_map.2 ⟨(k', v), List.mem_map.2 ⟨p, hp, by rw [if_pos hpk]⟩, rfl⟩
    · refine List.mem_map.2 ⟨p, List.mem_map.2 ⟨p, hp, by rw [if_neg hpk]⟩, hfst⟩
  · rw [List.map_append]
    exact List.mem_append.2 (Or.inl h)

theorem foldl_odCostStep_mem_keys (pw : ℚ → ℚ → ℚ) (net : NetworkData) (pf : List ℚ)
    (ef : List (String × ℚ)) {key : String} (L : List ODPair) :
    ∀ m, key ∈ m.map Prod.fst →
      key ∈ (L.foldl (odCostStep pw net pf ef) m).map Prod.fst := by
  induction L with
  | nil => intro m hm; exact hm
  | cons od t ih =>
    intro m hm
    rw [List.foldl_cons]
    refine ih _ ?_
    rw [odCostStep]
    split
    · exact hm
    · exact mem_keys_dictSet_of_mem _ _ hm

theorem foldl_odCostStep_key_present (pw : ℚ → ℚ → ℚ) (net : NetworkData) (pf : List ℚ)
    (ef : List (String × ℚ)) {key : String} (L : List ODPair)
    (hex : ∃ od ∈ L, fmtKey od = key ∧ od_path_indices net od.origin od.destination ≠ []) :
    ∀ m, key ∈ (L.foldl (odCostStep pw net pf ef) m).map Prod.fst := by
  induction L with
  | nil =>
    obtain ⟨od, hmem, _⟩ := hex
    exact absurd hmem (List.not_mem_nil _)
  | cons od t ih =>
    intro m
    rw [List.foldl_cons]
    by_cases hw : fmtKey od = key ∧ od_path_indices net od.origin od.destination ≠ []
    · refine foldl_odCostStep_mem_keys pw net pf ef t _ ?_
      rw [odCostStep, if_neg hw.2, hw.1]
      exact mem_keys_dictSet_self _ _ _
    · rcases hex with ⟨od', hmem', hkey', hidx'⟩
      have hmt : od' ∈ t := by
        rcases List.mem_cons.1 hmem' with rfl | h
        · exact absurd ⟨hkey', hidx'⟩ hw
        · exact h
      exact ih ⟨od', hmt, hkey', hidx'⟩ _

/-- C7 (amended: distinct OD keys must format to distinct
`origin->destination` strings — otherwise a later OD pair's entry
overwrites an earlier one's).  Per-OD cost formatting: every OD pair with
candidate paths is present in the mapping under its formatted key, bound
to the rounded flow-weighted average path cost when its total path flow
is positive and to the minimum candidate-path cost when its total flow is
zero; an OD pair with no candidate paths is absent from the mapping, and
removing it from the network changes neither solver's result nor any
formatted total system cost (it contributes zero). -/
theorem od_cost_formatting (pw : ℚ → ℚ → ℚ) (net : NetworkData) (pf : List ℚ)
    (ef : List (String × ℚ)) (tolls : Option (List (String × ℚ)))
    (αs : Nat → ℚ) (max_iter : Nat) (tol : ℚ)
    (hkey : ∀ od1 ∈ net.od_pairs, ∀ od2 ∈ net.od_pairs, fmtKey od1 = fmtKey od2 →
      od1.origin = od2.origin ∧ od1.destination = od2.destination)
    (od : ODPair) (hod : od ∈ net.od_pairs) :
    (od_path_indices net od.origin od.destination ≠ [] →
      lookupD (format_results pw net pf ef tolls).od_costs (fmtKey od) =
        round4 (od_avg_cost net pf (compute_path_costs pw net ef false)
          od.origin od.destination) ∧
      fmtKey od ∈ (format_results pw net pf ef tolls).od_costs.map Prod.fst) ∧
    (od_path_indices net od.origin od.destination = [] →
      fmtKey od ∉ (format_results pw net pf ef tolls).od_costs.map Prod.fst) ∧
    (find_all_simple_paths net od.origin od.destination 50 = [] →
      solve_wardrop_equilibrium pw (dropOD net od.origin od.destination) αs max_iter tol =
        solve_wardrop_equilibrium pw net αs max_iter tol ∧
      solve_system_optimum pw (dropOD net od.origin od.destination) αs max_iter tol =
        solve_system_optimum pw net αs max_iter tol ∧
      ∀ (pf' : List ℚ) (ef' : List (String × ℚ)) (tolls' : Option (List (String × ℚ))),
        (format_results pw (dropOD net od.origin od.destination) pf' ef' tolls').total_system_cost =
          (format_results pw net pf' ef' tolls').total_system_cost) := by
  refine ⟨?_, ?_, ?_⟩
  · intro hidx
    rw [format_results_od_costs]
    constructor
    · refine foldl_odCostStep_lookup pw net pf ef net.od_pairs ?_ ⟨od, hod, rfl, hidx⟩ []
      intro od' hod' hkey'
      obtain ⟨ho, hd⟩ := hkey od' hod' od hod hkey'
      rw [ho, hd]
      exact ⟨hidx, rfl⟩
    · exact foldl_odCostStep_key_present pw net pf ef net.od_pairs ⟨od, hod, rfl, hidx⟩ []
  · intro hidx
    rw [format_results_od_costs]
    refine foldl_odCostStep_not_mem pw net pf ef net.od_pairs ?_ []
      (by simp)
    intro od' hod' hkey'
    obtain ⟨ho, hd⟩ := hkey od' hod' od hod hkey'
    rw [ho, hd]
    exact hidx
  · intro hfind
    obtain ⟨h1, h2⟩ := solve_dropOD pw net hfind αs max_iter tol
    exact ⟨h1, h2, fun pf' ef' tolls' => rfl⟩

/-! ## Concrete networks for witnesses and counterexamples -/

theorem fwLoop_one (pw : ℚ → ℚ → ℚ) (net : NetworkData) (um : Bool) (αs : Nat → ℚ)
    (tol : ℚ) (i : Nat) (flows : List ℚ) :
    fwLoop pw net um αs tol i 1 flows = fw_update pw net um flows (αs i) := by
  rw [fwLoop]
  split
  · rfl
  · rfl

theorem ratPow_den_one {e : ℚ} (x : ℚ) (h : e.den = 1) : ratPow x e = x ^ e.num := by
  rw [ratPow, if_pos h]

theorem poly_ne_bpr : ("polynomial" : String) ≠ "bpr" := by decide

/-- A polynomial cost function; the bpr fields are unused on the
polynomial branch and are set to division-free literals. -/
def cfPoly (a k b : ℚ) : EdgeCostFunction :=
  EdgeCostFunction.mk a k b "polynomial" 1 1 0 4

/-- One edge `A -> B`, one OD pair with demand 3: the basic witness
network. -/
def netW1 : NetworkData :=
  NetworkData.mk [Node.mk "A" 0 0, Node.mk "B" 1 0]
    [Edge.mk "e1" "A" "B" (cfPoly 1 1 0)]
    [ODPair.mk "A" "B" 3]

/-- Constant step-size oracle 1/2 (an admissible line-search output). -/
def halfSeq : Nat → ℚ := fun _ => 1 / 2

theorem halfSeq_bounds : ∀ i, 0 ≤ halfSeq i ∧ halfSeq i ≤ 1 := by
  intro i
  constructor <;> norm_num [halfSeq]

theorem netW1_all_paths : all_paths netW1 = [(("A", "B"), ["A", "B"], ["e1"])] := by decide

theorem netW1_aon (costs : List ℚ) : all_or_nothing netW1 costs = [3] := by
  rw [all_or_nothing, show netW1.od_pairs = [ODPair.mk "A" "B" 3] from rfl,
    List.foldl_cons, List.foldl_nil, aonStep, if_pos (by decide), if_neg (by decide),
    show od_path_indices netW1 "A" "B" = [0] from by decide, netW1_all_paths]
  rfl

theorem netW1_ef3 : compute_edge_flows netW1 [3] = [("e1", 3)] := by
  rw [compute_edge_flows]
  have hv : edge_flow_val netW1 [3] "e1" = 3 := by
    rw [edge_flow_val, netW1_all_paths]
    norm_num [Finset.sum_range_succ]
  rw [show pyKeys (netW1.edges.map (fun e => e.id)) = ["e1"] from by decide,
    List.map_cons, List.map_nil, hv]

theorem netW1_fw_update (α : ℚ) (um : Bool) (flows : List ℚ) (h : flows = [3]) :
    fw_update ratPow netW1 um flows α = [3] := by
  subst h
  rw [fw_update, netW1_aon]
  norm_num [vecCombine]

theorem netW1_fwSeq0 (um : Bool) (αs : Nat → ℚ) :
    fwSeq ratPow netW1 um αs 0 = [3] := by
  rw [fwSeq, netW1_aon]

theorem netW1_fwSeq1 (um : Bool) (αs : Nat → ℚ) :
    fwSeq ratPow netW1 um αs 1 = [3] := by
  rw [fwSeq, netW1_fw_update _ um _ (netW1_fwSeq0 um αs)]

theorem netW1_solveW :
    solve_wardrop_equilibrium ratPow netW1 halfSeq 1 (1 / 1000000) = ([3], [("e1", 3)]) := by
  rw [solve_wardrop_equilibrium, if_neg (by decide)]
  show (fwLoop ratPow netW1 false halfSeq (1 / 1000000) 0 1
      (all_or_nothing netW1 (compute_path_costs ratPow netW1 (zero_edge_flows netW1) false)),
    compute_edge_flows netW1 (fwLoop ratPow netW1 false halfSeq (1 / 1000000) 0 1
      (all_or_nothing netW1 (compute_path_costs ratPow netW1 (zero_edge_flows netW1) false)))) =
    ([3], [("e1", 3)])
  rw [netW1_aon, fwLoop_one, netW1_fw_update _ false [3] rfl, netW1_ef3]

theorem netW1_solveSO :
    solve_system_optimum ratPow netW1 halfSeq 1 (1 / 1000000) = ([3], [("e1", 3)]) := by
  rw [solve_system_optimum, if_neg (by decide)]
  show (fwLoop ratPow netW1 true halfSeq (1 / 1000000) 0 1
      (all_or_nothing netW1 (compute_path_costs ratPow netW1 (zero_edge_flows netW1) true)),
    compute_edge_flows netW1 (fwLoop ratPow netW1 true halfSeq (1 / 1000000) 0 1
      (all_or_nothing netW1 (compute_path_costs ratPow netW1 (zero_edge_flows netW1) true)))) =
    ([3], [("e1", 3)])
  rw [netW1_aon, fwLoop_one, netW1_fw_update _ true [3] rfl, netW1_ef3]

/-- Witness for C1: on the one-edge network with demand 3, both solvers
conserve the OD pair's demand. -/
theorem mass_conservation_witness :
    odFlowSum netW1 "A" "B"
        (solve_wardrop_equilibrium ratPow netW1 halfSeq 1 (1 / 1000000)).1 = 3 ∧
      odFlowSum netW1 "A" "B"
        (solve_system_optimum ratPow netW1 halfSeq 1 (1 / 1000000)).1 = 3 :=
  mass_conservation_solvers ratPow netW1 halfSeq halfSeq 1 (1 / 1000000) (by decide)
    (ODPair.mk "A" "B" 3) (by decide) (by decide)

/-- Witness for C2: non-negativity of the flows delivered on the
witness network. -/
theorem flows_nonneg_witness :
    (∀ i, 0 ≤ (solve_wardrop_equilibrium ratPow netW1 halfSeq 1 (1 / 1000000)).1.getD i 0) ∧
      (∀ p ∈ (solve_wardrop_equilibrium ratPow netW1 halfSeq 1 (1 / 1000000)).2, 0 ≤ p.2) ∧
      (∀ i, 0 ≤ (solve_system_optimum ratPow netW1 halfSeq 1 (1 / 1000000)).1.getD i 0) ∧
      (∀ p ∈ (solve_system_optimum ratPow netW1 halfSeq 1 (1 / 1000000)).2, 0 ≤ p.2) :=
  flows_nonneg_solvers ratPow netW1 halfSeq halfSeq 1 (1 / 1000000)
    (by intro od hod; rcases List.mem_singleton.1 hod with rfl; norm_num)
    halfSeq_bounds halfSeq_bounds

/-- Witness for C3: on the witness network the returned edge flow of
`e1` is the sum over the candidate paths traversing it, and the edge-flow
dict is recomputed from the final flow vector. -/
theorem edge_flow_reconstruction_witness :
    lookupD (solve_wardrop_equilibrium ratPow netW1 halfSeq 1 (1 / 1000000)).2 "e1" =
      ∑ i in (Finset.range (all_paths netW1).length).filter
        (fun i => "e1" ∈ ((all_paths netW1).getD i emptyTrip).2.2),
        (solve_wardrop_equilibrium ratPow netW1 halfSeq 1 (1 / 1000000)).1.getD i 0 ∧
    (solve_wardrop_equilibrium ratPow netW1 halfSeq 1 (1 / 1000000)).2 =
      compute_edge_flows netW1 (solve_wardrop_equilibrium ratPow netW1 halfSeq 1 (1 / 1000000)).1 :=
  ⟨((edge_flow_reconstruction ratPow netW1 halfSeq halfSeq 1 (1 / 1000000) (by decide)).1
      (Edge.mk "e1" "A" "B" (cfPoly 1 1 0)) (by decide)).1,
    ((edge_flow_reconstruction ratPow netW1 halfSeq halfSeq 1 (1 / 1000000) (by decide)).2
      (by decide)).1⟩

/-- Witness for C4: a concrete polynomial descriptor evaluated at flow 2
realises the contract; the closed forms take the expected values. -/
theorem cost_evaluator_witness :
    (evaluate_cost ratPow (cfPoly 2 3 1) 2 = some (spec_cost ratPow (cfPoly 2 3 1) 2) ∧
      evaluate_cost_derivative ratPow (cfPoly 2 3 1) 2 =
        some (spec_derivative ratPow (cfPoly 2 3 1) 2) ∧
      evaluate_marginal_cost ratPow (cfPoly 2 3 1) 2 =
        some (spec_cost ratPow (cfPoly 2 3 1) 2 +
          2 * spec_derivative ratPow (cfPoly 2 3 1) 2) ∧
      evaluate_integral ratPow (cfPoly 2 3 1) 2 = some (spec_integral ratPow (cfPoly 2 3 1) 2)) ∧
    spec_cost ratPow (cfPoly 2 3 1) 2 = 17 := by
  obtain ⟨h1, h2, h3, h4⟩ :=
    (cost_evaluator_contract ratPow (cfPoly 2 3 1) 2 (by norm_num)).1 (by decide)
  exact ⟨⟨h1 (by norm_num [cfPoly]), h2, h3 (by norm_num [cfPoly]),
      h4 (by norm_num [cfPoly]) (by norm_num [cfPoly])⟩,
    by norm_num [spec_cost, cfPoly, poly_ne_bpr, ratPow]⟩

/-- Witness for C5: on the witness network the very first iteration
converges, and the solver accepts the new iterate `fwSeq 1`. -/
theorem termination_witness :
    fwConv ratPow netW1 false halfSeq (1 / 1000000) 0 ∧
    (solve_wardrop_equilibrium ratPow netW1 halfSeq 1 (1 / 1000000)).1 =
      fwSeq ratPow netW1 false halfSeq (0 + 1) := by
  have hconv : fwConv ratPow netW1 false halfSeq (1 / 1000000) 0 := by
    rw [fwConv, netW1_fwSeq1, netW1_fwSeq0]
    norm_num [maxAbsDiff]
  exact ⟨hconv,
    (termination_contract ratPow netW1 halfSeq halfSeq 1 (1 / 1000000) (by decide)).1.1 0
      (by norm_num) hconv (fun k hk => absurd hk (Nat.not_lt_zero k))⟩

/-- A network whose only OD pair `B -> A` has no connecting path. -/
def netNP : NetworkData :=
  NetworkData.mk [Node.mk "A" 0 0, Node.mk "B" 1 0]
    [Edge.mk "e1" "A" "B" (cfPoly 1 1 0)]
    [ODPair.mk "B" "A" 1]

theorem netNP_no_candidate : ∀ p, ¬ IsCandidatePath netNP "B" "A" p := by
  intro p hp
  obtain ⟨h1, h2, h3, _, _⟩ := hp
  cases p with
  | nil => exact absurd h1 (by simp)
  | cons a q =>
    have ha : a = "B" := by simpa using h1
    subst ha
    cases q with
    | nil =>
      have : ("B" : String) = "A" := by simpa using h2
      exact absurd this (by decide)
    | cons b r =>
      have hR := (List.chain'_cons.1 h3).1
      rw [show netNP.edges = [Edge.mk "e1" "A" "B" (cfPoly 1 1 0)] from rfl] at hR
      simp at hR

/-- Witness for C6: applying the enumerator contract to a pair with no
connecting path yields the empty enumeration (not a failure). -/
theorem path_enumerator_witness : find_all_simple_paths netNP "B" "A" 50 = [] :=
  (path_enumerator_contract netNP "B" "A").2.2.2.2 netNP_no_candidate

/-- Witness for C10: on a network with an edge but no candidate path,
both solvers return the empty vector and the empty dict, which differs
from the all-zero edge dict, and formatting yields no per-edge entries. -/
theorem empty_candidate_paths_witness :
    solve_wardrop_equilibrium ratPow netNP halfSeq 1000 (1 / 1000000) = ([], []) ∧
    solve_system_optimum ratPow netNP halfSeq 1000 (1 / 1000000) = ([], []) ∧
    ([] : List (String × ℚ)) ≠ zero_edge_flows netNP ∧
    (format_results ratPow netNP [] [] none).edge_results = [] := by
  have h := empty_candidate_paths ratPow netNP halfSeq halfSeq 1000 (1 / 1000000) (by decide)
  exact ⟨h.1, h.2.1, h.2.2.1 (by decide), h.2.2.2.1⟩

/-- Witness network for the per-OD cost formatting: one served OD pair
`A -> B` and one OD pair `C -> A` with no connecting path. -/
def netW7 : NetworkData :=
  NetworkData.mk [Node.mk "A" 0 0, Node.mk "B" 1 0, Node.mk "C" 2 0]
    [Edge.mk "e1" "A" "B" (cfPoly 1 1 0)]
    [ODPair.mk "A" "B" 2, ODPair.mk "C" "A" 1]

/-- Witness for C7: the served OD pair is present with its rounded
average cost; the unserved one is absent from the mapping, and dropping
it changes neither solver's result. -/
theorem od_cost_formatting_witness :
    (lookupD (format_results ratPow netW7 [2] [("e1", 2)] none).od_costs
        (fmtKey (ODPair.mk "A" "B" 2)) =
      round4 (od_avg_cost netW7 [2]
        (compute_path_costs ratPow netW7 [("e1", 2)] false) "A" "B")) ∧
    fmtKey (ODPair.mk "C" "A" 1) ∉
      (format_results ratPow netW7 [2] [("e1", 2)] none).od_costs.map Prod.fst ∧
    solve_wardrop_equilibrium ratPow (dropOD netW7 "C" "A") halfSeq 1 (1 / 1000000) =
      solve_wardrop_equilibrium ratPow netW7 halfSeq 1 (1 / 1000000) :=
  ⟨((od_cost_formatting ratPow netW7 [2] [("e1", 2)] none halfSeq 1 (1 / 1000000)
      (by decide) (ODPair.mk "A" "B" 2) (by decide)).1 (by decide)).1,
    (od_cost_formatting ratPow netW7 [2] [("e1", 2)] none halfSeq 1 (1 / 1000000)
      (by decide) (ODPair.mk "C" "A" 1) (by decide)).2.1 (by decide),
    ((od_cost_formatting ratPow netW7 [2] [("e1", 2)] none halfSeq 1 (1 / 1000000)
      (by decide) (ODPair.mk "C" "A" 1) (by decide)).2.2 (by decide)).1⟩

theorem netW1_so_total :
    (compute_equilibrium ratPow netW1 halfSeq halfSeq 1 (1 / 1000000)).system_optimum.total_system_cost = 9 := by
  have h1 : (compute_equilibrium ratPow netW1 halfSeq halfSeq 1 (1 / 1000000)).system_optimum.total_system_cost =
      (format_results ratPow netW1 [3] [("e1", 3)]
        (some (compute_optimal_tolls ratPow netW1 [("e1", 3)]))).total_system_cost := by
    show (format_results ratPow netW1
        (solve_system_optimum ratPow netW1 halfSeq 1 (1 / 1000000)).1
        (solve_system_optimum ratPow netW1 halfSeq 1 (1 / 1000000)).2
        (some (compute_optimal_tolls ratPow netW1
          (solve_system_optimum ratPow netW1 halfSeq 1 (1 / 1000000)).2))).total_system_cost = _
    rw [netW1_solveSO]
  rw [h1]
  show round4 (([("e1", (3 : ℚ))].map (fun p =>
    match edge_data netW1 p.1 with
    | some e => p.2 * evaluate_costT ratPow e.cost_function p.2
    | none => 0)).sum) = 9
  have h2 : (([("e1", (3 : ℚ))].map (fun p =>
      match edge_data netW1 p.1 with
      | some e => p.2 * evaluate_costT ratPow e.cost_function p.2
      | none => 0)).sum) = 9 := by
    simp only [List.map_cons, List.map_nil, List.sum_cons, List.sum_nil,
      show edge_data netW1 "e1" = some (Edge.mk "e1" "A" "B" (cfPoly 1 1 0)) from by decide]
    norm_num [evaluate_costT, cfPoly, poly_ne_bpr, ratPow]
  rw [h2, round4_eval 9 90000 (by norm_num)]
  norm_num

/-- Witness for C8: on the witness network the system-optimum total cost
is 9 > 0 and the returned price of anarchy is the rounded ratio of the
two total costs. -/
theorem price_of_anarchy_witness :
    (compute_equilibrium ratPow netW1 halfSeq halfSeq 1 (1 / 1000000)).price_of_anarchy =
      round4 ((compute_equilibrium ratPow netW1 halfSeq halfSeq 1 (1 / 1000000)).wardrop_equilibrium.total_system_cost /
        (compute_equilibrium ratPow netW1 halfSeq halfSeq 1 (1 / 1000000)).system_optimum.total_system_cost) :=
  (price_of_anarchy_guarded ratPow netW1 halfSeq halfSeq 1 (1 / 1000000)).2
    (by rw [netW1_so_total]; norm_num)

/-- Counterexample input for C4: polynomial `a=1, k=-1, b=0`. -/
def cfNegK : EdgeCostFunction := cfPoly 1 (-1) 0

/-- Counterexample for C4 as stated: at the listed degenerate point
`f = 0`, the polynomial cost with exponent `k = -1` raises
(`0.0 ** -1.0` is a `ZeroDivisionError`), so `evaluate_cost` does not
return the spec's closed form there. -/
theorem cost_evaluator_cex :
    evaluate_cost ratPow cfNegK 0 = none ∧
      evaluate_cost ratPow cfNegK 0 ≠ some (spec_cost ratPow cfNegK 0) := by
  have h : evaluate_cost ratPow cfNegK 0 = none := by decide
  refine ⟨h, ?_⟩
  rw [h]
  exact fun hc => Option.noConfusion hc

/-- Two identical OD pairs `A -> B` with demands 5 and 7: the second
all-or-nothing write overwrites the first. -/
def dupNet : NetworkData :=
  NetworkData.mk [Node.mk "A" 0 0, Node.mk "B" 1 0]
    [Edge.mk "e1" "A" "B" (cfPoly 1 1 0)]
    [ODPair.mk "A" "B" 5, ODPair.mk "A" "B" 7]

theorem dupNet_aon (c : ℚ) : all_or_nothing dupNet [c, c] = [7, 0] := by
  rw [all_or_nothing,
    show dupNet.od_pairs = [ODPair.mk "A" "B" 5, ODPair.mk "A" "B" 7] from rfl,
    List.foldl_cons, List.foldl_cons, List.foldl_nil]
  rw [aonStep, if_pos (by decide), if_neg (by decide),
    show od_path_indices dupNet "A" "B" = [0, 1] from by decide]
  rw [aonStep, if_pos (by decide), if_neg (by decide),
    show od_path_indices dupNet "A" "B" = [0, 1] from by decide]
  have hargmin : argmin_on [c, c] [0, 1] = 0 := by
    rw [argmin_on, List.foldl_cons, List.foldl_nil]
    rw [show [c, c].getD 1 0 = c from rfl, show [c, c].getD 0 0 = c from rfl,
      if_neg (lt_irrefl c)]
  rw [hargmin]
  rw [show (List.replicate (all_paths dupNet).length (0 : ℚ)) = [0, 0] from by decide]
  rfl

theorem dupNet_costs_shape (ef : List (String × ℚ)) (um : Bool) :
    ∃ c, compute_path_costs ratPow dupNet ef um = [c, c] := by
  rw [compute_path_costs,
    show all_paths dupNet =
      [(("A", "B"), ["A", "B"], ["e1"]), (("A", "B"), ["A", "B"], ["e1"])] from by decide]
  exact ⟨_, rfl⟩

theorem dupNet_fw_update (α : ℚ) (um : Bool) (flows : List ℚ) (h : flows = [7, 0]) :
    fw_update ratPow dupNet um flows α = [7, 0] := by
  subst h
  rw [fw_update]
  obtain ⟨c, hc⟩ := dupNet_costs_shape (compute_edge_flows dupNet [7, 0]) um
  rw [hc, dupNet_aon]
  norm_num [vecCombine]

theorem dupNet_solveW :
    (solve_wardrop_equilibrium ratPow dupNet halfSeq 1 (1 / 1000000)).1 = [7, 0] := by
  rw [solve_wardrop_equilibrium, if_neg (by decide)]
  show fwLoop ratPow dupNet false halfSeq (1 / 1000000) 0 1
    (all_or_nothing dupNet (compute_path_costs ratPow dupNet (zero_edge_flows dupNet) false)) =
    [7, 0]
  obtain ⟨c, hc⟩ := dupNet_costs_shape (zero_edge_flows dupNet) false
  rw [hc, dupNet_aon, fwLoop_one, dupNet_fw_update _ false [7, 0] rfl]

/-- Counterexample for C1 as stated: on the network with the OD pair
`A -> B` listed twice (demands 5 and 7), the equilibrium solver's flows
sum to 7 on that OD key, not to the first pair's demand 5 — the second
all-or-nothing assignment overwrites the first. -/
theorem mass_conservation_cex :
    ¬ (∀ (net : NetworkData) (αs : Nat → ℚ) (max_iter : Nat) (tol : ℚ) (od : ODPair),
        od ∈ net.od_pairs →
        find_all_simple_paths net od.origin od.destination 50 ≠ [] →
        odFlowSum net od.origin od.destination
          (solve_wardrop_equilibrium ratPow net αs max_iter tol).1 = od.demand) := by
  intro h
  have h5 := h dupNet halfSeq 1 (1 / 1000000) (ODPair.mk "A" "B" 5) (by decide) (by decide)
  rw [dupNet_solveW] at h5
  have h7 : odFlowSum dupNet "A" "B" [7, 0] = 7 := by
    rw [odFlowSum, show od_path_indices dupNet "A" "B" = [0, 1] from by decide]
    norm_num
  rw [h7] at h5
  norm_num at h5

/-- Two distinct edges that share the id `"x"`: the reported flow for
`"x"` double-counts paths traversing both. -/
def dupIdNet : NetworkData :=
  NetworkData.mk [Node.mk "A" 0 0, Node.mk "B" 1 0, Node.mk "C" 2 0]
    [Edge.mk "x" "A" "B" (cfPoly 1 1 0), Edge.mk "x" "B" "C" (cfPoly 1 1 0)]
    [ODPair.mk "A" "C" 1]

theorem dupIdNet_all_paths :
    all_paths dupIdNet = [(("A", "C"), ["A", "B", "C"], ["x", "x"])] := by decide

theorem dupIdNet_aon (costs : List ℚ) : all_or_nothing dupIdNet costs = [1] := by
  rw [all_or_nothing, show dupIdNet.od_pairs = [ODPair.mk "A" "C" 1] from rfl,
    List.foldl_cons, List.foldl_nil, aonStep, if_pos (by decide), if_neg (by decide),
    show od_path_indices dupIdNet "A" "C" = [0] from by decide, dupIdNet_all_paths]
  rfl

theorem dupIdNet_ef : compute_edge_flows dupIdNet [1] = [("x", 2)] := by
  rw [compute_edge_flows]
  have hv : edge_flow_val dupIdNet [1] "x" = 2 := by
    rw [edge_flow_val, dupIdNet_all_paths]
    norm_num [Finset.sum_range_succ]
  rw [show pyKeys (dupIdNet.edges.map (fun e => e.id)) = ["x"] from by decide,
    List.map_cons, List.map_nil, hv]

theorem dupIdNet_fw_update (α : ℚ) (um : Bool) (flows : List ℚ) (h : flows = [1]) :
    fw_update ratPow dupIdNet um flows α = [1] := by
  subst h
  rw [fw_update, dupIdNet_aon]
  norm_num [vecCombine]

theorem dupIdNet_solveW :
    solve_wardrop_equilibrium ratPow dupIdNet halfSeq 1 (1 / 1000000) = ([1], [("x", 2)]) := by
  rw [solve_wardrop_equilibrium, if_neg (by decide)]
  show (fwLoop ratPow dupIdNet false halfSeq (1 / 1000000) 0 1
      (all_or_nothing dupIdNet (compute_path_costs ratPow dupIdNet (zero_edge_flows dupIdNet) false)),
    compute_edge_flows dupIdNet (fwLoop ratPow dupIdNet false halfSeq (1 / 1000000) 0 1
      (all_or_nothing dupIdNet (compute_path_costs ratPow dupIdNet (zero_edge_flows dupIdNet) false)))) =
    ([1], [("x", 2)])
  rw [dupIdNet_aon, fwLoop_one, dupIdNet_fw_update _ false [1] rfl, dupIdNet_ef]

/-- Counterexample for C3 as stated: with two edges sharing the id
`"x"`, the reported flow on `"x"` is 2 while the path flows crossing
any single such edge sum to 1 — the dict comprehension double-counts
under duplicate ids. -/
theorem edge_flow_reconstruction_cex :
    ¬ (∀ (net : NetworkData) (αsW : Nat → ℚ) (max_iter : Nat) (tol : ℚ),
        ∀ e ∈ net.edges,
          lookupD (solve_wardrop_equilibrium ratPow net αsW max_iter tol).2 e.id =
            ∑ i in (Finset.range (all_paths net).length).filter
              (fun i => e.id ∈ ((all_paths net).getD i emptyTrip).2.2),
              (solve_wardrop_equilibrium ratPow net αsW max_iter tol).1.getD i 0) := by
  intro h
  have hx := h dupIdNet halfSeq 1 (1 / 1000000)
    (Edge.mk "x" "A" "B" (cfPoly 1 1 0)) (by decide)
  rw [dupIdNet_solveW, dupIdNet_all_paths] at hx
  rw [show lookupD [("x", (2 : ℚ))] "x" = 2 from by rw [lookupD]; rfl] at hx
  rw [show (Finset.range [(("A", "C"), ["A", "B", "C"], ["x", "x"])].length).filter
      (fun i => "x" ∈ ([(("A", "C"), ["A", "B", "C"], ["x", "x"])].getD i emptyTrip).2.2) =
      {0} from by decide] at hx
  rw [Finset.sum_singleton] at hx
  norm_num at hx

theorem round4_two : round4 2 = 2 := by
  rw [round4_eval 2 20000 (by norm_num)]
  norm_num

/-- Node names engineered so two distinct OD pairs share the formatted
key: `"A" -> "B->C"` and `"A->B" -> "C"` both print as `"A->B->C"`. -/
def cex7Net : NetworkData :=
  NetworkData.mk
    [Node.mk "A" 0 0, Node.mk "B->C" 1 0, Node.mk "A->B" 2 0, Node.mk "C" 3 0]
    [Edge.mk "e1" "A" "B->C" (cfPoly 0 1 1), Edge.mk "e2" "A->B" "C" (cfPoly 0 1 2)]
    [ODPair.mk "A" "B->C" 1, ODPair.mk "A->B" "C" 1]

theorem cex7_all_paths :
    all_paths cex7Net =
      [(("A", "B->C"), ["A", "B->C"], ["e1"]), (("A->B", "C"), ["A->B", "C"], ["e2"])] := by
  decide

theorem cex7_costs :
    compute_path_costs ratPow cex7Net [("e1", 1), ("e2", 1)] false = [1, 2] := by
  rw [compute_path_costs, cex7_all_paths]
  simp only [List.map_cons, List.map_nil, List.foldl_cons, List.foldl_nil,
    show edge_data cex7Net "e1" = some (Edge.mk "e1" "A" "B->C" (cfPoly 0 1 1)) from by decide,
    show edge_data cex7Net "e2" = some (Edge.mk "e2" "A->B" "C" (cfPoly 0 1 2)) from by decide]
  norm_num [evaluate_costT, cfPoly, poly_ne_bpr, ratPow, lookupD]

theorem cex7_avg1 : od_avg_cost cex7Net [1, 1] [1, 2] "A" "B->C" = 1 := by
  rw [od_avg_cost, show od_path_indices cex7Net "A" "B->C" = [0] from by decide]
  norm_num

theorem cex7_avg2 : od_avg_cost cex7Net [1, 1] [1, 2] "A->B" "C" = 2 := by
  rw [od_avg_cost, show od_path_indices cex7Net "A->B" "C" = [1] from by decide]
  norm_num

theorem cex7_step1 :
    odCostStep ratPow cex7Net [1, 1] [("e1", 1), ("e2", 1)] [] (ODPair.mk "A" "B->C" 1) =
      [("A->B->C", 1)] := by
  rw [odCostStep, if_neg (by decide), cex7_costs, cex7_avg1, round4_one]
  decide

theorem cex7_step2 :
    odCostStep ratPow cex7Net [1, 1] [("e1", 1), ("e2", 1)] [("A->B->C", 1)]
      (ODPair.mk "A->B" "C" 1) = [("A->B->C", 2)] := by
  rw [odCostStep, if_neg (by decide), cex7_costs, cex7_avg2, round4_two]
  decide

theorem cex7_map :
    (format_results ratPow cex7Net [1, 1] [("e1", 1), ("e2", 1)] none).od_costs =
      [("A->B->C", 2)] := by
  rw [format_results_od_costs,
    show cex7Net.od_pairs = [ODPair.mk "A" "B->C" 1, ODPair.mk "A->B" "C" 1] from rfl,
    List.foldl_cons, List.foldl_cons, List.foldl_nil, cex7_step1, cex7_step2]

/-- Counterexample for C7 as stated: the OD pair `"A" -> "B->C"` has a
candidate path and average cost 1, but its entry in the formatted
per-OD map is 2 — the colliding key `"A->B->C"` was overwritten by the
distinct OD pair `"A->B" -> "C"`. -/
theorem od_cost_formatting_cex :
    ¬ (∀ (net : NetworkData) (pf : List ℚ) (ef : List (String × ℚ))
        (tolls : Option (List (String × ℚ))), ∀ od ∈ net.od_pairs,
        od_path_indices net od.origin od.destination ≠ [] →
        lookupD (format_results ratPow net pf ef tolls).od_costs (fmtKey od) =
          round4 (od_avg_cost net pf (compute_path_costs ratPow net ef false)
            od.origin od.destination)) := by
  intro h
  have h1 := h cex7Net [1, 1] [("e1", 1), ("e2", 1)] none (ODPair.mk "A" "B->C" 1)
    (by decide) (by decide)
  rw [cex7_costs, cex7_avg1, round4_one, cex7_map] at h1
  rw [show lookupD [("A->B->C", (2 : ℚ))] (fmtKey (ODPair.mk "A" "B->C" 1)) = 2
    from by decide] at h1
  norm_num at h1

def quarterSeq : Nat → ℚ := fun _ => 1 / 4

def oneSeq : Nat → ℚ := fun _ => 1

/-- A network with negative-cost edges: the system-optimal total cost is
negative, so the code's `> 0` guard returns `poa = 1.0` even though the
spec's ratio is well defined and differs from 1. Route 1 is the direct
edge `x` (cost `2f - 5`); route 2 is `y, z` (constant cost `-2`). -/
def cex8Net : NetworkData :=
  NetworkData.mk [Node.mk "A" 0 0, Node.mk "B" 1 0, Node.mk "C" 2 0]
    [Edge.mk "x" "A" "B" (cfPoly 2 1 (-5)), Edge.mk "y" "A" "C" (cfPoly 0 1 (-1)),
      Edge.mk "z" "C" "B" (cfPoly 0 1 (-1))]
    [ODPair.mk "A" "B" 1]

theorem cex8_all_paths :
    all_paths cex8Net =
      [(("A", "B"), ["A", "B"], ["x"]), (("A", "B"), ["A", "C", "B"], ["y", "z"])] := by
  decide

theorem cex8_costs0 :
    compute_path_costs ratPow cex8Net (zero_edge_flows cex8Net) false = [-5, -2] := by
  rw [compute_path_costs, cex8_all_paths,
    show zero_edge_flows cex8Net = [("x", 0), ("y", 0), ("z", 0)] from by decide]
  simp only [List.map_cons, List.map_nil, List.foldl_cons, List.foldl_nil,
    show edge_data cex8Net "x" = some (Edge.mk "x" "A" "B" (cfPoly 2 1 (-5))) from by decide,
    show edge_data cex8Net "y" = some (Edge.mk "y" "A" "C" (cfPoly 0 1 (-1))) from by decide,
    show edge_data cex8Net "z" = some (Edge.mk "z" "C" "B" (cfPoly 0 1 (-1))) from by decide]
  norm_num [evaluate_costT, cfPoly, poly_ne_bpr, ratPow, lookupD]

theorem cex8_aon_init : all_or_nothing cex8Net [-5, -2] = [1, 0] := by decide

theorem cex8_ef10 :
    compute_edge_flows cex8Net [1, 0] = [("x", 1), ("y", 0), ("z", 0)] := by
  rw [compute_edge_flows]
  have hx : edge_flow_val cex8Net [1, 0] "x" = 1 := by
    rw [edge_flow_val, cex8_all_paths]
    norm_num [Finset.sum_range_succ,
      show List.count "x" (["x"] : List String) = 1 from by decide,
      show List.count "x" (["y", "z"] : List String) = 0 from by decide]
  have hy : edge_flow_val cex8Net [1, 0] "y" = 0 := by
    rw [edge_flow_val, cex8_all_paths]
    norm_num [Finset.sum_range_succ,
      show List.count "y" (["x"] : List String) = 0 from by decide,
      show List.count "y" (["y", "z"] : List String) = 1 from by decide]
  have hz : edge_flow_val cex8Net [1, 0] "z" = 0 := by
    rw [edge_flow_val, cex8_all_paths]
    norm_num [Finset.sum_range_succ,
      show List.count "z" (["x"] : List String) = 0 from by decide,
      show List.count "z" (["y", "z"] : List String) = 1 from by decide]
  rw [show pyKeys (cex8Net.edges.map (fun e => e.id)) = ["x", "y", "z"] from by decide,
    List.map_cons, List.map_cons, List.map_cons, List.map_nil, hx, hy, hz]

theorem cex8_ef01 :
    compute_edge_flows cex8Net [0, 1] = [("x", 0), ("y", 1), ("z", 1)] := by
  rw [compute_edge_flows]
  have hx : edge_flow_val cex8Net [0, 1] "x" = 0 := by
    rw [edge_flow_val, cex8_all_paths]
    norm_num [Finset.sum_range_succ,
      show List.count "x" (["x"] : List String) = 1 from by decide,
      show List.count "x" (["y", "z"] : List String) = 0 from by decide]
  have hy : edge_flow_val cex8Net [0, 1] "y" = 1 := by
    rw [edge_flow_val, cex8_all_paths]
    norm_num [Finset.sum_range_succ,
      show List.count "y" (["x"] : List String) = 0 from by decide,
      show List.count "y" (["y", "z"] : List String) = 1 from by decide]
  have hz : edge_flow_val cex8Net [0, 1] "z" = 1 := by
    rw [edge_flow_val, cex8_all_paths]
    norm_num [Finset.sum_range_succ,
      show List.count "z" (["x"] : List String) = 0 from by decide,
      show List.count "z" (["y", "z"] : List String) = 1 from by decide]
  rw [show pyKeys (cex8Net.edges.map (fun e => e.id)) = ["x", "y", "z"] from by decide,
    List.map_cons, List.map_cons, List.map_cons, List.map_nil, hx, hy, hz]

theorem cex8_costs1 :
    compute_path_costs ratPow cex8Net [("x", 1), ("y", 0), ("z", 0)] false = [-3, -2] := by
  rw [compute_path_costs, cex8_all_paths]
  simp only [List.map_cons, List.map_nil, List.foldl_cons, List.foldl_nil,
    show edge_data cex8Net "x" = some (Edge.mk "x" "A" "B" (cfPoly 2 1 (-5))) from by decide,
    show edge_data cex8Net "y" = some (Edge.mk "y" "A" "C" (cfPoly 0 1 (-1))) from by decide,
    show edge_data cex8Net "z" = some (Edge.mk "z" "C" "B" (cfPoly 0 1 (-1))) from by decide]
  norm_num [evaluate_costT, cfPoly, poly_ne_bpr, ratPow, lookupD]

theorem cex8_aon_we : all_or_nothing cex8Net [-3, -2] = [1, 0] := by decide

theorem cex8_costs0m :
    compute_path_costs ratPow cex8Net (zero_edge_flows cex8Net) true = [-5, -2] := by
  rw [compute_path_costs, cex8_all_paths,
    show zero_edge_flows cex8Net = [("x", 0), ("y", 0), ("z", 0)] from by decide]
  simp only [List.map_cons, List.map_nil, List.foldl_cons, List.foldl_nil,
    show edge_data cex8Net "x" = some (Edge.mk "x" "A" "B" (cfPoly 2 1 (-5))) from by decide,
    show edge_data cex8Net "y" = some (Edge.mk "y" "A" "C" (cfPoly 0 1 (-1))) from by decide,
    show edge_data cex8Net "z" = some (Edge.mk "z" "C" "B" (cfPoly 0 1 (-1))) from by decide]
  norm_num [evaluate_marginal_costT, evaluate_costT, evaluate_cost_derivativeT,
    cfPoly, poly_ne_bpr, ratPow, lookupD]

theorem cex8_costs1m :
    compute_path_costs ratPow cex8Net [("x", 1), ("y", 0), ("z", 0)] true = [-1, -2] := by
  rw [compute_path_costs, cex8_all_paths]
  simp only [List.map_cons, List.map_nil, List.foldl_cons, List.foldl_nil,
    show edge_data cex8Net "x" = some (Edge.mk "x" "A" "B" (cfPoly 2 1 (-5))) from by decide,
    show edge_data cex8Net "y" = some (Edge.mk "y" "A" "C" (cfPoly 0 1 (-1))) from by decide,
    show edge_data cex8Net "z" = some (Edge.mk "z" "C" "B" (cfPoly 0 1 (-1))) from by decide]
  norm_num [evaluate_marginal_costT, evaluate_costT, evaluate_cost_derivativeT,
    cfPoly, poly_ne_bpr, ratPow, lookupD]

theorem cex8_aon_so : all_or_nothing cex8Net [-1, -2] = [0, 1] := by decide

theorem cex8_solveW :
    solve_wardrop_equilibrium ratPow cex8Net quarterSeq 1 (1 / 1000000) =
      ([1, 0], [("x", 1), ("y", 0), ("z", 0)]) := by
  rw [solve_wardrop_equilibrium, if_neg (by decide)]
  show (fwLoop ratPow cex8Net false quarterSeq (1 / 1000000) 0 1
      (all_or_nothing cex8Net (compute_path_costs ratPow cex8Net (zero_edge_flows cex8Net) false)),
    compute_edge_flows cex8Net (fwLoop ratPow cex8Net false quarterSeq (1 / 1000000) 0 1
      (all_or_nothing cex8Net (compute_path_costs ratPow cex8Net (zero_edge_flows cex8Net) false)))) =
    ([1, 0], [("x", 1), ("y", 0), ("z", 0)])
  rw [cex8_costs0, cex8_aon_init, fwLoop_one]
  have hupd : fw_update ratPow cex8Net false [1, 0] (quarterSeq 0) = [1, 0] := by
    rw [fw_update, cex8_ef10, cex8_costs1, cex8_aon_we]
    norm_num [vecCombine, quarterSeq]
  rw [hupd, cex8_ef10]

theorem cex8_solveSO :
    solve_system_optimum ratPow cex8Net oneSeq 1 (1 / 1000000) =
      ([0, 1], [("x", 0), ("y", 1), ("z", 1)]) := by
  rw [solve_system_optimum, if_neg (by decide)]
  show (fwLoop ratPow cex8Net true oneSeq (1 / 1000000) 0 1
      (all_or_nothing cex8Net (compute_path_costs ratPow cex8Net (zero_edge_flows cex8Net) true)),
    compute_edge_flows cex8Net (fwLoop ratPow cex8Net true oneSeq (1 / 1000000) 0 1
      (all_or_nothing cex8Net (compute_path_costs ratPow cex8Net (zero_edge_flows cex8Net) true)))) =
    ([0, 1], [("x", 0), ("y", 1), ("z", 1)])
  rw [cex8_costs0m, cex8_aon_init, fwLoop_one]
  have hupd : fw_update ratPow cex8Net true [1, 0] (oneSeq 0) = [0, 1] := by
    rw [fw_update, cex8_ef10, cex8_costs1m, cex8_aon_so]
    norm_num [vecCombine, oneSeq]
  rw [hupd, cex8_ef01]

theorem cex8_we_total :
    (compute_equilibrium ratPow cex8Net quarterSeq oneSeq 1 (1 / 1000000)).wardrop_equilibrium.total_system_cost = -3 := by
  have h1 : (compute_equilibrium ratPow cex8Net quarterSeq oneSeq 1 (1 / 1000000)).wardrop_equilibrium.total_system_cost =
      (format_results ratPow cex8Net [1, 0] [("x", 1), ("y", 0), ("z", 0)] none).total_system_cost := by
    show (format_results ratPow cex8Net
        (solve_wardrop_equilibrium ratPow cex8Net quarterSeq 1 (1 / 1000000)).1
        (solve_wardrop_equilibrium ratPow cex8Net quarterSeq 1 (1 / 1000000)).2
        none).total_system_cost = _
    rw [cex8_solveW]
  rw [h1]
  show round4 (([("x", (1 : ℚ)), ("y", 0), ("z", 0)].map (fun p =>
    match edge_data cex8Net p.1 with
    | some e => p.2 * evaluate_costT ratPow e.cost_function p.2
    | none => 0)).sum) = -3
  have h2 : (([("x", (1 : ℚ)), ("y", 0), ("z", 0)].map (fun p =>
      match edge_data cex8Net p.1 with
      | some e => p.2 * evaluate_costT ratPow e.cost_function p.2
      | none => 0)).sum) = -3 := by
    simp only [List.map_cons, List.map_nil, List.sum_cons, List.sum_nil,
      show edge_data cex8Net "x" = some (Edge.mk "x" "A" "B" (cfPoly 2 1 (-5))) from by decide,
      show edge_data cex8Net "y" = some (Edge.mk "y" "A" "C" (cfPoly 0 1 (-1))) from by decide,
      show edge_data cex8Net "z" = some (Edge.mk "z" "C" "B" (cfPoly 0 1 (-1))) from by decide]
    norm_num [evaluate_costT, cfPoly, poly_ne_bpr, ratPow]
  rw [h2, round4_eval (-3) (-30000) (by norm_num)]
  norm_num

theorem cex8_so_total :
    (compute_equilibrium ratPow cex8Net quarterSeq oneSeq 1 (1 / 1000000)).system_optimum.total_system_cost = -2 := by
  have h1 : (compute_equilibrium ratPow cex8Net quarterSeq oneSeq 1 (1 / 1000000)).system_optimum.total_system_cost =
      (format_results ratPow cex8Net [0, 1] [("x", 0), ("y", 1), ("z", 1)]
        (some (compute_optimal_tolls ratPow cex8Net [("x", 0), ("y", 1), ("z", 1)]))).total_system_cost := by
    show (format_results ratPow cex8Net
        (solve_system_optimum ratPow cex8Net oneSeq 1 (1 / 1000000)).1
        (solve_system_optimum ratPow cex8Net oneSeq 1 (1 / 1000000)).2
        (some (compute_optimal_tolls ratPow cex8Net
          (solve_system_optimum ratPow cex8Net oneSeq 1 (1 / 1000000)).2))).total_system_cost = _
    rw [cex8_solveSO]
  rw [h1]
  show round4 (([("x", (0 : ℚ)), ("y", 1), ("z", 1)].map (fun p =>
    match edge_data cex8Net p.1 with
    | some e => p.2 * evaluate_costT ratPow e.cost_function p.2
    | none => 0)).sum) = -2
  have h2 : (([("x", (0 : ℚ)), ("y", 1), ("z", 1)].map (fun p =>
      match edge_data cex8Net p.1 with
      | some e => p.2 * evaluate_costT ratPow e.cost_function p.2
      | none => 0)).sum) = -2 := by
    simp only [List.map_cons, List.map_nil, List.sum_cons, List.sum_nil,
      show edge_data cex8Net "x" = some (Edge.mk "x" "A" "B" (cfPoly 2 1 (-5))) from by decide,
      show edge_data cex8Net "y" = some (Edge.mk "y" "A" "C" (cfPoly 0 1 (-1))) from by decide,
      show edge_data cex8Net "z" = some (Edge.mk "z" "C" "B" (cfPoly 0 1 (-1))) from by decide]
    norm_num [evaluate_costT, cfPoly, poly_ne_bpr, ratPow]
  rw [h2, round4_eval (-2) (-20000) (by norm_num)]
  norm_num

/-- Counterexample for C8 as stated: on the negative-cost network the
system-optimal total cost is `-2` (nonzero, so the spec's ratio
`round4(-3 / -2) = 1.5` is well defined), yet the endpoint returns a
price of anarchy of `1.0` — the code's guard is `> 0`, not `≠ 0`. -/
theorem price_of_anarchy_cex :
    ¬ (∀ (net : NetworkData) (αsW αsSO : Nat → ℚ) (max_iter : Nat) (tol : ℚ),
        (compute_equilibrium ratPow net αsW αsSO max_iter tol).system_optimum.total_system_cost ≠ 0 →
        (compute_equilibrium ratPow net αsW αsSO max_iter tol).price_of_anarchy =
          round4 ((compute_equilibrium ratPow net αsW αsSO max_iter tol).wardrop_equilibrium.total_system_cost /
            (compute_equilibrium ratPow net αsW αsSO max_iter tol).system_optimum.total_system_cost)) := by
  intro h
  have h1 := h cex8Net quarterSeq oneSeq 1 (1 / 1000000) (by rw [cex8_so_total]; norm_num)
  rw [cex8_we_total, cex8_so_total] at h1
  rw [compute_equilibrium_poa, if_neg (by rw [cex8_so_total]; norm_num), round4_one] at h1
  rw [show ((-3 : ℚ) / (-2 : ℚ)) = 3 / 2 from by norm_num] at h1
  rw [round4_eval (3 / 2) 15000 (by norm_num)] at h1
  norm_num at h1
